import Mathlib

/-!
The `awssignature` logical backend and the `pgpkeys` flag helper.

A shallow embedding of `addon/logical/awssignature/backend.go` (the four
request handlers, the three path patterns and the signing-key derivation), of
`helper/pgpkeys/flag.go` (`ReadPGPFile` and `PubKeyFilesFlag.Set`) and of the
test in `logical/framework/path_test.go`, together with models of the library
routines they call (SHA-256, HMAC, base64, JSON, the storage view, the
framework router and the file system).

Conventions.
* A Go `[]byte` is a `List Nat` of values below 256; 32-bit words are
  naturals reduced modulo `2 ^ 32`.
* A Go `string` is a Lean `String`, that is, well-formed text; `[]byte(s)` is
  its UTF-8 encoding.  The contents of a file are bytes.
* A handler returns a `Result` (response, error or run-time panic) together
  with the storage state it leaves behind.
-/

set_option autoImplicit false

/-- Equality of outcomes is decidable. -/
instance Except.decEq {ε α : Type} [DecidableEq ε] [DecidableEq α] : DecidableEq (Except ε α)
  | .ok a, .ok b =>
    if h : a = b then isTrue (by rw [h]) else isFalse (by intro e; cases e; exact h rfl)
  | .error a, .error b =>
    if h : a = b then isTrue (by rw [h]) else isFalse (by intro e; cases e; exact h rfl)
  | .ok _, .error _ => isFalse (by intro e; cases e)
  | .error _, .ok _ => isFalse (by intro e; cases e)

/-- A byte string, `[]byte`. -/
abbrev Bytes := List Nat

/-- The conversion `[]byte(s)`: the UTF-8 encoding of `s`. -/
def stringBytes (s : String) : Bytes :=
  (s.data.flatMap String.utf8EncodeChar).map UInt8.toNat

/-! ## crypto/sha256 (FIPS 180-4) -/

namespace Sha256

/-- The round constants `K`. -/
def K : List Nat := [
  0x428a2f98, 0x71374491, 0xb5c0fbcf, 0xe9b5dba5, 0x3956c25b, 0x59f111f1, 0x923f82a4, 0xab1c5ed5,
  0xd807aa98, 0x12835b01, 0x243185be, 0x550c7dc3, 0x72be5d74, 0x80deb1fe, 0x9bdc06a7, 0xc19bf174,
  0xe49b69c1, 0xefbe4786, 0x0fc19dc6, 0x240ca1cc, 0x2de92c6f, 0x4a7484aa, 0x5cb0a9dc, 0x76f988da,
  0x983e5152, 0xa831c66d, 0xb00327c8, 0xbf597fc7, 0xc6e00bf3, 0xd5a79147, 0x06ca6351, 0x14292967,
  0x27b70a85, 0x2e1b2138, 0x4d2c6dfc, 0x53380d13, 0x650a7354, 0x766a0abb, 0x81c2c92e, 0x92722c85,
  0xa2bfe8a1, 0xa81a664b, 0xc24b8b70, 0xc76c51a3, 0xd192e819, 0xd6990624, 0xf40e3585, 0x106aa070,
  0x19a4c116, 0x1e376c08, 0x2748774c, 0x34b0bcb5, 0x391c0cb3, 0x4ed8aa4a, 0x5b9cca4f, 0x682e6ff3,
  0x748f82ee, 0x78a5636f, 0x84c87814, 0x8cc70208, 0x90befffa, 0xa4506ceb, 0xbef9a3f7, 0xc67178f2]

/-- Rotate a 32-bit word right by `n` bits. -/
def rotr (x n : Nat) : Nat := ((x >>> n) ||| (x <<< (32 - n))) % 2 ^ 32

/-- Addition of 32-bit words. -/
def add32 (x y : Nat) : Nat := (x + y) % 2 ^ 32

/-- Bitwise complement of a 32-bit word. -/
def not32 (x : Nat) : Nat := 2 ^ 32 - 1 - x

def ch (x y z : Nat) : Nat := (x &&& y) ^^^ (not32 x &&& z)

def maj (x y z : Nat) : Nat := (x &&& y) ^^^ (x &&& z) ^^^ (y &&& z)

def bsig0 (x : Nat) : Nat := rotr x 2 ^^^ rotr x 13 ^^^ rotr x 22

def bsig1 (x : Nat) : Nat := rotr x 6 ^^^ rotr x 11 ^^^ rotr x 25

def ssig0 (x : Nat) : Nat := rotr x 7 ^^^ rotr x 18 ^^^ (x >>> 3)

def ssig1 (x : Nat) : Nat := rotr x 17 ^^^ rotr x 19 ^^^ (x >>> 10)

/-- One step of the message schedule.  The argument holds the words computed
so far, newest first, so that `W[t-2]`, `W[t-7]`, `W[t-15]` and `W[t-16]` sit at
positions 1, 6, 14 and 15. -/
def schedStep : List Nat → List Nat
  | ws@(_ :: w2 :: _ :: _ :: _ :: _ :: w7 :: _ :: _ :: _ :: _ :: _ :: _ :: _ :: w15 :: w16 :: _) =>
      add32 (add32 (add32 (ssig1 w2) w7) (ssig0 w15)) w16 :: ws
  | ws => ws

/-- The 64 schedule words `W[0..63]` of a 16-word block. -/
def schedule (block : List Nat) : List Nat :=
  (Nat.iterate schedStep 48 block.reverse).reverse

/-- The eight working variables / chaining value. -/
structure State where
  a : Nat
  b : Nat
  c : Nat
  d : Nat
  e : Nat
  f : Nat
  g : Nat
  h : Nat
deriving DecidableEq

/-- The initial hash value `H(0)`. -/
def init : State :=
  ⟨0x6a09e667, 0xbb67ae85, 0x3c6ef372, 0xa54ff53a, 0x510e527f, 0x9b05688c, 0x1f83d9ab, 0x5be0cd19⟩

/-- One of the 64 rounds, with round constant `kw.1` and schedule word `kw.2`. -/
def round (s : State) (kw : Nat × Nat) : State :=
  let t1 := add32 (add32 (add32 (add32 s.h (bsig1 s.e)) (ch s.e s.f s.g)) kw.1) kw.2
  let t2 := add32 (bsig0 s.a) (maj s.a s.b s.c)
  ⟨add32 t1 t2, s.a, s.b, s.c, add32 s.d t1, s.e, s.f, s.g⟩

/-- The compression function on one 16-word block. -/
def compress (s : State) (block : List Nat) : State :=
  let r := (K.zip (schedule block)).foldl round s
  ⟨add32 s.a r.a, add32 s.b r.b, add32 s.c r.c, add32 s.d r.d,
   add32 s.e r.e, add32 s.f r.f, add32 s.g r.g, add32 s.h r.h⟩

/-- Big-endian bytes of a 32-bit word. -/
def be32 (w : Nat) : Bytes := [w / 2 ^ 24 % 256, w / 2 ^ 16 % 256, w / 2 ^ 8 % 256, w % 256]

/-- Big-endian bytes of a 64-bit word. -/
def be64 (w : Nat) : Bytes := be32 (w / 2 ^ 32 % 2 ^ 32) ++ be32 (w % 2 ^ 32)

/-- The big-endian word made of (up to) four bytes. -/
def word (bs : Bytes) : Nat := bs.foldl (fun acc b => acc * 256 + b) 0

/-- Padding: a `0x80` byte, zeros up to 56 modulo 64, then the bit length. -/
def pad (msg : Bytes) : Bytes :=
  msg ++ [0x80] ++ List.replicate ((119 - msg.length % 64) % 64) 0
    ++ be64 (8 * msg.length % 2 ^ 64)

/-- The `i`-th 64-byte block of the padded message, as 16 words. -/
def block (padded : Bytes) (i : Nat) : List Nat :=
  (List.range 16).map (fun j => word ((padded.drop (64 * i + 4 * j)).take 4))

/-- The digest bytes of a chaining value. -/
def digest (s : State) : Bytes :=
  [s.a, s.b, s.c, s.d, s.e, s.f, s.g, s.h].flatMap be32

/-- The function `sha256.Sum256`. -/
def Sum256 (msg : Bytes) : Bytes :=
  let padded := pad msg
  digest ((List.range (padded.length / 64)).foldl (fun s i => compress s (block padded i)) init)

end Sha256

/-! ## crypto/hmac (RFC 2104), instantiated with SHA-256 -/

namespace Hmac

/-- The block size of SHA-256 in bytes. -/
def blockSize : Nat := 64

/-- The key block: keys longer than a block are hashed first, then the key is
zero-padded to the block size. -/
def keyBlock (key : Bytes) : Bytes :=
  let k := if key.length > blockSize then Sha256.Sum256 key else key
  k ++ List.replicate (blockSize - k.length) 0

/-- The value of `hmac.New(sha256.New, key)` after `Write(data)` and `Sum(nil)`. -/
def Sum (key data : Bytes) : Bytes :=
  let k := keyBlock key
  let ipad := k.map (fun b => b ^^^ 0x36)
  let opad := k.map (fun b => b ^^^ 0x5c)
  Sha256.Sum256 (opad ++ Sha256.Sum256 (ipad ++ data))

end Hmac

/-! ## encoding/base64, `StdEncoding` -/

namespace Base64

/-- The standard alphabet. -/
def encodeStd : List Char :=
  "ABCDEFGHIJKLMNOPQRSTUVWXYZabcdefghijklmnopqrstuvwxyz0123456789+/".data

/-- The character of a 6-bit value. -/
def enc (n : Nat) : Char := encodeStd.getD n 'A'

/-- Encoding with `=` padding, three bytes to four characters. -/
def encode : Bytes → List Char
  | [] => []
  | [a] => [enc (a / 4), enc (a % 4 * 16), '=', '=']
  | [a, b] => [enc (a / 4), enc (a % 4 * 16 + b / 16), enc (b % 16 * 4), '=']
  | a :: b :: c :: rest =>
      enc (a / 4) :: enc (a % 4 * 16 + b / 16) :: enc (b % 16 * 4 + c / 64) :: enc (c % 64)
        :: encode rest

/-- The method `StdEncoding.EncodeToString`. -/
def EncodeToString (src : Bytes) : String := ⟨encode src⟩

end Base64

/-! ## The signing-key derivation (`backend.go`, `makeHmac` and `buildSignature`) -/

namespace Awssignature

def makeHmac (key : Bytes) (data : Bytes) : Bytes :=
  Hmac.Sum key data

def buildSignature (secretKey datestamp regionName serviceName : String) : Bytes :=
  let date := makeHmac (stringBytes ("AWS4" ++ secretKey)) (stringBytes datestamp)
  let region := makeHmac date (stringBytes regionName)
  let service := makeHmac region (stringBytes serviceName)
  let signingKey := makeHmac service (stringBytes "aws4_request")
  signingKey

end Awssignature

/-! ## Values held in `map[string]interface{}` and encoding/json -/

/-- A value of a `map[string]interface{}` attribute bag: the variants a
decoded JSON document can hold.  Numbers are the integer-valued ones.  A
mapping is the sequence of its bindings, in which a later binding of a key
overrides an earlier one, exactly as assignment into a Go map does. -/
inductive Value where
  | null
  | bool (b : Bool)
  | num (n : Int)
  | str (s : String)
  | obj (fields : List (String × Value))

mutual
/-- Equality of values is decidable. -/
def Value.decEq : (a b : Value) → Decidable (a = b)
  | .null, .null => isTrue rfl
  | .bool a, .bool b =>
    if h : a = b then isTrue (by rw [h]) else isFalse (by intro e; cases e; exact h rfl)
  | .num a, .num b =>
    if h : a = b then isTrue (by rw [h]) else isFalse (by intro e; cases e; exact h rfl)
  | .str a, .str b =>
    if h : a = b then isTrue (by rw [h]) else isFalse (by intro e; cases e; exact h rfl)
  | .obj a, .obj b =>
    match Value.decEqFields a b with
    | isTrue h => isTrue (by rw [h])
    | isFalse h => isFalse (by intro e; cases e; exact h rfl)
  | .null, .bool _ | .null, .num _ | .null, .str _ | .null, .obj _
  | .bool _, .null | .bool _, .num _ | .bool _, .str _ | .bool _, .obj _
  | .num _, .null | .num _, .bool _ | .num _, .str _ | .num _, .obj _
  | .str _, .null | .str _, .bool _ | .str _, .num _ | .str _, .obj _
  | .obj _, .null | .obj _, .bool _ | .obj _, .num _ | .obj _, .str _ =>
    isFalse (by intro e; cases e)
/-- Equality of sequences of bindings is decidable. -/
def Value.decEqFields : (a b : List (String × Value)) → Decidable (a = b)
  | [], [] => isTrue rfl
  | [], _ :: _ | _ :: _, [] => isFalse (by intro e; cases e)
  | (k, v) :: fs, (k2, v2) :: fs2 =>
    if hk : k = k2 then
      match Value.decEq v v2 with
      | isTrue hv =>
        match Value.decEqFields fs fs2 with
        | isTrue hf => isTrue (by rw [hk, hv, hf])
        | isFalse hf => isFalse (by intro e; cases e; exact hf rfl)
      | isFalse hv => isFalse (by intro e; cases e; exact hv rfl)
    else isFalse (by intro e; cases e; exact hk rfl)
end

instance : DecidableEq Value := Value.decEq

/-- An attribute bag, `map[string]interface{}`. -/
abbrev Bag := List (String × Value)

/-- The binding of `k` in force in `m`, if any: the last one. -/
def Bag.get? (m : Bag) (k : String) : Option Value :=
  match m with
  | [] => none
  | (k1, v) :: rest =>
    match Bag.get? rest k with
    | some w => some w
    | none => if k1 = k then some v else none

/-- The index expression `m[k]`: the value bound to `k`, and the nil interface
when `k` is not bound. -/
def Bag.index (m : Bag) (k : String) : Value :=
  (m.get? k).getD .null

namespace Json

def hexDigit (n : Nat) : Char := "0123456789abcdef".data.getD n '0'

/-- The escape `\uXXXX` of a code point below `0x10000`. -/
def escapeU (n : Nat) : List Char :=
  ['\\', 'u', hexDigit (n / 4096 % 16), hexDigit (n / 256 % 16), hexDigit (n / 16 % 16),
    hexDigit (n % 16)]

/-- The encoding of one character inside a string literal, with the HTML-safe
escapes that `json.Marshal` applies. -/
def escapeChar (c : Char) : List Char :=
  if c = '"' then ['\\', '"']
  else if c = '\\' then ['\\', '\\']
  else if c = '\n' then ['\\', 'n']
  else if c = '\r' then ['\\', 'r']
  else if c = '\t' then ['\\', 't']
  else if c.toNat < 0x20 ∨ c = '<' ∨ c = '>' ∨ c = '&' ∨ c.toNat = 0x2028 ∨ c.toNat = 0x2029 then
    escapeU c.toNat
  else [c]

def encodeString (s : String) : List Char :=
  '"' :: s.data.flatMap escapeChar ++ ['"']

def encodeInt (n : Int) : List Char :=
  if n < 0 then '-' :: Nat.toDigits 10 n.natAbs else Nat.toDigits 10 n.natAbs

mutual
def encodeValue : Value → List Char
  | .null => ['n', 'u', 'l', 'l']
  | .bool b => if b then ['t', 'r', 'u', 'e'] else ['f', 'a', 'l', 's', 'e']
  | .num n => encodeInt n
  | .str s => encodeString s
  | .obj fs => '{' :: encodeMembers fs ++ ['}']
def encodeMembers : List (String × Value) → List Char
  | [] => []
  | (k, v) :: fs =>
    encodeString k ++ ':' :: encodeValue v ++ (if fs.isEmpty then [] else ',' :: encodeMembers fs)
end

/-- The function `json.Marshal` on an attribute bag. -/
def Marshal (m : Bag) : Except String String :=
  .ok ⟨encodeValue (.obj m)⟩

/-! ### Decoding -/

def isSpace (c : Char) : Bool := c = ' ' || c = '\t' || c = '\r' || c = '\n'

def skipWs : List Char → List Char
  | [] => []
  | c :: rest => if isSpace c then skipWs rest else c :: rest

def hexVal (c : Char) : Option Nat :=
  if '0' ≤ c ∧ c ≤ '9' then some (c.toNat - 48)
  else if 'a' ≤ c ∧ c ≤ 'f' then some (c.toNat - 87)
  else if 'A' ≤ c ∧ c ≤ 'F' then some (c.toNat - 55)
  else none

def hex4 (a b c d : Char) : Option Nat :=
  match hexVal a, hexVal b, hexVal c, hexVal d with
  | some x, some y, some z, some w => some (x * 4096 + y * 256 + z * 16 + w)
  | _, _, _, _ => none

/-- The character denoted by a one-letter escape. -/
def unescape (e : Char) : Option Char :=
  if e = '"' then some '"'
  else if e = '\\' then some '\\'
  else if e = '/' then some '/'
  else if e = 'b' then some (Char.ofNat 8)
  else if e = 'f' then some (Char.ofNat 12)
  else if e = 'n' then some '\n'
  else if e = 'r' then some '\r'
  else if e = 't' then some '\t'
  else none

/-- The Unicode replacement character, substituted for an unpaired surrogate. -/
def replacement : Char := Char.ofNat 0xFFFD

/-- Reads `\\uXXXX` holding a low surrogate, the second half of a pair. -/
def readLow : List Char → Option (Nat × List Char)
  | '\\' :: 'u' :: a :: b :: c :: d :: rest =>
    match hex4 a b c d with
    | some m => if 0xDC00 ≤ m ∧ m < 0xE000 then some (m, rest) else none
    | none => none
  | _ => none

/-- Reads the four hex digits of a `\\u` escape; a surrogate pair is combined,
an unpaired surrogate is replaced. -/
def readU : List Char → Option (Char × List Char)
  | a :: b :: c :: d :: rest =>
    match hex4 a b c d with
    | none => none
    | some n =>
      if 0xD800 ≤ n ∧ n < 0xDC00 then
        match readLow rest with
        | some (m, rest1) =>
          some (Char.ofNat (0x10000 + (n - 0xD800) * 1024 + (m - 0xDC00)), rest1)
        | none => some (replacement, rest)
      else if 0xDC00 ≤ n ∧ n < 0xE000 then some (replacement, rest)
      else some (Char.ofNat n, rest)
  | _ => none

/-- Reads an escape sequence after its backslash. -/
def readEscape : List Char → Option (Char × List Char)
  | [] => none
  | e :: rest => if e = 'u' then readU rest else (unescape e).map fun x => (x, rest)

/-- Reads a string literal after its opening quote: the decoded characters and
the input left after the closing quote.  The fuel bounds the characters read. -/
def parseStringBody : Nat → List Char → Option (List Char × List Char)
  | 0, _ => none
  | _ + 1, [] => none
  | fuel + 1, c :: rest =>
    if c = '"' then some ([], rest)
    else if c = '\\' then
      match readEscape rest with
      | none => none
      | some (x, rest1) => (parseStringBody fuel rest1).map fun p => (x :: p.1, p.2)
    else if c.toNat < 0x20 then none
    else (parseStringBody fuel rest).map fun p => (c :: p.1, p.2)

/-- Reads a string literal after its opening quote. -/
def parseString (cs : List Char) : Option (String × List Char) :=
  (parseStringBody cs.length cs).map fun p => (⟨p.1⟩, p.2)

/-- Reads a run of decimal digits onto the accumulator. -/
def parseDigits (acc : Nat) : List Char → Nat × List Char
  | [] => (acc, [])
  | c :: rest =>
    if c.isDigit then parseDigits (acc * 10 + (c.toNat - 48)) rest else (acc, c :: rest)

/-- Reads the integer part of a number: `0`, or a non-zero digit followed by
digits. -/
def parseNat : List Char → Option (Nat × List Char)
  | [] => none
  | c :: rest =>
    if c = '0' then some (0, rest)
    else if c.isDigit then some (parseDigits (c.toNat - 48) rest)
    else none

/-- Whether a number literal may stop before this input: not before a further
digit, and not before a fraction or exponent. -/
def endsNumber : List Char → Bool
  | [] => true
  | c :: _ => !(c.isDigit || c = '.' || c = 'e' || c = 'E')

def parseInt : List Char → Option (Int × List Char)
  | [] => none
  | c :: rest =>
    if c = '-' then
      match parseNat rest with
      | some (n, r) => if endsNumber r then some (-(n : Int), r) else none
      | none => none
    else
      match parseNat (c :: rest) with
      | some (n, r) => if endsNumber r then some ((n : Int), r) else none
      | none => none

/-- Reads the rest of a literal name such as `null`. -/
def parseLit (lit : List Char) (v : Value) (cs : List Char) : Option (Value × List Char) :=
  if lit.isPrefixOf cs then some (v, cs.drop lit.length) else none

mutual
/-- Reads one value; the fuel bounds the number of values and members read. -/
def parseValue : Nat → List Char → Option (Value × List Char)
  | 0, _ => none
  | fuel + 1, cs =>
    match skipWs cs with
    | [] => none
    | c :: rest =>
      if c = '"' then (parseString rest).map fun p => (.str p.1, p.2)
      else if c = '{' then
        match skipWs rest with
        | [] => none
        | c1 :: rest1 =>
          if c1 = '}' then some (.obj [], rest1)
          else (parseMembers fuel (c1 :: rest1)).map fun p => (.obj p.1, p.2)
      else if c = 'n' then parseLit ['u', 'l', 'l'] .null rest
      else if c = 't' then parseLit ['r', 'u', 'e'] (.bool true) rest
      else if c = 'f' then parseLit ['a', 'l', 's', 'e'] (.bool false) rest
      else (parseInt (c :: rest)).map fun p => (.num p.1, p.2)
/-- Reads the members of an object up to and including the closing brace. -/
def parseMembers : Nat → List Char → Option (List (String × Value) × List Char)
  | 0, _ => none
  | fuel + 1, cs =>
    match skipWs cs with
    | [] => none
    | c :: rest =>
      if c = '"' then
        match parseString rest with
        | none => none
        | some (k, rest1) =>
          match skipWs rest1 with
          | [] => none
          | c1 :: rest2 =>
            if c1 = ':' then
              match parseValue fuel rest2 with
              | none => none
              | some (v, rest3) =>
                match skipWs rest3 with
                | [] => none
                | c2 :: rest4 =>
                  if c2 = ',' then
                    (parseMembers fuel rest4).map fun p => ((k, v) :: p.1, p.2)
                  else if c2 = '}' then some ([(k, v)], rest4)
                  else none
            else none
      else none
end

/-- The function `json.Unmarshal` into a `map[string]interface{}` that is nil
beforehand: an object yields its bindings, `null` leaves the map nil (empty),
any other document is an error. -/
def Unmarshal (data : String) : Except String Bag :=
  match parseValue (data.length + 1) data.data with
  | some (.obj m, rest) =>
    if skipWs rest = [] then .ok m else .error "invalid character after top-level value"
  | some (.null, rest) =>
    if skipWs rest = [] then .ok [] else .error "invalid character after top-level value"
  | some (_, _) => .error "json: cannot unmarshal into Go value of type map[string]interface \x7b\x7d"
  | none => .error "invalid JSON input"

end Json

mutual
/-- The number of values and members of a value: the fuel its decoding needs. -/
def Value.size : Value → Nat
  | .obj fs => 1 + membersSize fs
  | _ => 1
/-- The number of values and members in a sequence of bindings. -/
def membersSize : List (String × Value) → Nat
  | [] => 0
  | (_, v) :: fs => 1 + v.size + membersSize fs
end

/-! ## strings -/

namespace Strings

/-- Replaces the first `n` occurrences of the non-empty `old` by `new`; the
fuel bounds the characters scanned. -/
def replaceN (old new : List Char) : Nat → Nat → List Char → List Char
  | 0, _, cs => cs
  | _ + 1, 0, cs => cs
  | _ + 1, _ + 1, [] => []
  | fuel + 1, n + 1, c :: cs =>
    if old.isPrefixOf (c :: cs) then new ++ replaceN old new fuel n ((c :: cs).drop old.length)
    else c :: replaceN old new fuel (n + 1) cs

/-- The function `strings.Replace(s, old, new, n)` for non-empty `old` and `n ≥ 0`. -/
def Replace (s old new : String) (n : Nat) : String :=
  ⟨replaceN old.data new.data (s.length + 1) n s.data⟩

end Strings

/-! ## The `logical` package: requests, responses, storage -/

namespace Logical

inductive Operation where
  | ReadOperation
  | WriteOperation
  | DeleteOperation
deriving DecidableEq

/-- An entry of the storage: `Value` is the stored blob.  The backend stores
JSON documents only; the blob is kept as the text of the document. -/
structure StorageEntry where
  Key : String
  Value : String
deriving DecidableEq

/-- Modelled from the spec: the storage view handed to the backend, which is
not part of the sources (only its `Put`/`Get`/`Delete` calls are).  It holds at
most one live entry per key: `Put` overwrites any existing record, `Get`
returns the most recently put entry or an explicit absent result, `Delete`
removes the record if present and is a no-op success otherwise. -/
abbrev Storage := List StorageEntry

def Storage.Get (s : Storage) (key : String) : Except String (Option StorageEntry) :=
  .ok (s.find? fun e => e.Key = key)

def Storage.Put (s : Storage) (entry : StorageEntry) : Except String Storage :=
  .ok (entry :: s.filter fun e => e.Key ≠ entry.Key)

def Storage.Delete (s : Storage) (key : String) : Except String Storage :=
  .ok (s.filter fun e => e.Key ≠ key)

structure Request where
  Operation : Operation
  Path : String
  Data : Bag
  Storage : Storage

structure Response where
  Data : Bag
deriving DecidableEq

/-- How a handler can fail: by returning an `error`, or by a run-time panic. -/
inductive Fault where
  | error (msg : String)
  | panic (msg : String)
deriving DecidableEq

/-- The outcome `(*logical.Response, error)` of a handler; `ok none` is the
outcome `nil, nil`. -/
abbrev Result := Except Fault (Option Response)

end Logical

/-! ## The `framework` package: field data, path patterns, routing -/

namespace Framework

open Logical

inductive FieldType where
  | TypeString
deriving DecidableEq

structure FieldSchema where
  Typ : FieldType
  Description : String
deriving DecidableEq

structure FieldData where
  Raw : Bag
  Schema : List (String × FieldSchema)

/-- Modelled from the spec: `FieldData.Get`, which is not part of the sources.
A field that the path did not supply reads as the zero value of its type, the
empty string. -/
def FieldData.Get (d : FieldData) (k : String) : Value :=
  match d.Raw.get? k with
  | some v => v
  | none => .str ""

/-- A piece of a path pattern: literal text, or a named group holding a
generic name (the value of `GenericNameRegex(field)`). -/
inductive Pat where
  | lit (s : String)
  | name (field : String)
deriving DecidableEq

/-- The pattern `framework.GenericNameRegex(name)`: one named group. -/
def GenericNameRegex (name : String) : List Pat := [.name name]

/-- Modelled from the spec: the grammar of a generic name token, which
`GenericNameRegex` (not part of the sources) compiles to: non-empty, made of
letters, digits, hyphen, underscore or dot. -/
def genericName (w : List Char) : Bool :=
  !w.isEmpty && w.all fun c => c.isAlphanum || c = '-' || c = '_' || c = '.'

/-- The values captured by the named groups of a pattern. -/
abbrev Captures := List (String × String)

/-- A full (anchored) match of a pattern against a path, with its captures;
`nameRe` is the grammar of a generic name. -/
inductive Matches (nameRe : List Char → Bool) : List Pat → List Char → Captures → Prop where
  | nil : Matches nameRe [] [] []
  | lit (s : String) (ps : List Pat) (rest : List Char) (caps : Captures) :
      Matches nameRe ps rest caps → Matches nameRe (.lit s :: ps) (s.data ++ rest) caps
  | name (f : String) (ps : List Pat) (w rest : List Char) (caps : Captures) :
      nameRe w = true → Matches nameRe ps rest caps →
      Matches nameRe (.name f :: ps) (w ++ rest) ((f, ⟨w⟩) :: caps)

/-- All ways of cutting a list in two, longest first part first. -/
def splits : List Char → List (List Char × List Char)
  | [] => [([], [])]
  | c :: cs => (splits cs).map (fun p => (c :: p.1, p.2)) ++ [([], c :: cs)]

/-- All full matches of a pattern against a path, in the order in which a
backtracking matcher with greedy groups finds them. -/
def matchAll (nameRe : List Char → Bool) : List Pat → List Char → List Captures
  | [], cs => if cs.isEmpty then [[]] else []
  | .lit s :: ps, cs =>
    if s.data.isPrefixOf cs then matchAll nameRe ps (cs.drop s.data.length) else []
  | .name f :: ps, cs =>
    (splits cs).flatMap fun p =>
      if nameRe p.1 then (matchAll nameRe ps p.2).map fun caps => (f, ⟨p.1⟩) :: caps else []

/-- The type `framework.OperationFunc`, returning also the storage left behind. -/
abbrev OperationFunc := Request → FieldData → Result × Storage

structure Path where
  Pattern : List Pat
  Fields : List (String × FieldSchema)
  Callbacks : List (Operation × OperationFunc)

structure Paths where
  Root : List String

structure Backend where
  Help : String
  PathsSpecial : Paths
  Paths : List Path

/-- Modelled from the spec: the router's search, which is not part of the
sources.  The first path whose anchored pattern matches the whole request
path is selected, with the captured parameters. -/
def route (nameRe : List Char → Bool) : List Path → String → Option (Path × Captures)
  | [], _ => none
  | p :: ps, path =>
    match (matchAll nameRe p.Pattern path.data).head? with
    | some caps => some (p, caps)
    | none => route nameRe ps path

/-- Modelled from the spec: `Backend.HandleRequest`, which is not part of the
sources.  A path that fits no pattern fails the request, as does an
operation the matched path has no callback for, in both cases before any
handler runs; otherwise the callback runs on the request and the parameters
extracted from the path. -/
def HandleRequest (nameRe : List Char → Bool) (b : Backend) (req : Request) : Result × Storage :=
  match route nameRe b.Paths req.Path with
  | none => (.error (.error "unsupported path"), req.Storage)
  | some (p, caps) =>
    match p.Callbacks.lookup req.Operation with
    | none => (.error (.error "unsupported operation"), req.Storage)
    | some callback =>
      callback req { Raw := caps.map fun kv => (kv.1, Value.str kv.2), Schema := p.Fields }

end Framework

/-! ## The backend (`backend.go`) -/

namespace Awssignature

open Logical Framework

/-- A type assertion `v.(string)`; it panics on any other value, the nil
interface (`Value.null`, also what indexing a map at a missing key gives)
included. -/
def assertString : Value → Except Fault String
  | .str s => .ok s
  | .null => .error (.panic "interface conversion: interface \x7b\x7d is nil, not string")
  | .bool _ => .error (.panic "interface conversion: interface \x7b\x7d is bool, not string")
  | .num _ => .error (.panic "interface conversion: interface \x7b\x7d is float64, not string")
  | .obj _ =>
    .error (.panic "interface conversion: interface \x7b\x7d is map[string]interface \x7b\x7d, not string")

def Fields : List (String × FieldSchema) := [
  ("key_id", { Typ := .TypeString, Description := "Unique ID of the key" }),
  ("secret_access_key", { Typ := .TypeString, Description := "AWS Secret Access Key" }),
  ("date", { Typ := .TypeString, Description := "Date string used for V4 signing" }),
  ("service_name", { Typ := .TypeString, Description := "Service string used for V4 signing" }),
  ("region_name", { Typ := .TypeString, Description := "Region string used for V4 signing" })]

def handleWrite (req : Request) (_data : FieldData) : Result × Storage :=
  -- Check that some fields are given
  if req.Data.length = 0 then (.error (.error "missing data fields"), req.Storage)
  else
    -- JSON encode the data
    match Json.Marshal req.Data with
    | .error err => (.error (.error ("json encoding failed: " ++ err)), req.Storage)
    | .ok buf =>
      -- Write out a new key
      let entry : StorageEntry := { Key := req.Path, Value := buf }
      match req.Storage.Put entry with
      | .error err => (.error (.error ("failed to write: " ++ err)), req.Storage)
      | .ok storage => (.ok none, storage)

def handleDelete (req : Request) (_data : FieldData) : Result × Storage :=
  -- Delete the key at the request path
  match req.Storage.Delete req.Path with
  | .error err => (.error (.error err), req.Storage)
  | .ok storage => (.ok none, storage)

/-- The body of `handleRead`; it leaves the storage as it is. -/
def handleReadResult (req : Request) (data : FieldData) : Result := do
  -- Read the path
  let keyID ← assertString (data.Raw.index "key_id")
  match req.Storage.Get keyID with
  | .error err => .error (.error ("read failed: " ++ err))
  -- Fast-path the no data case
  | .ok none => .ok none
  | .ok (some out) =>
    -- Decode the data
    match Json.Unmarshal out.Value with
    | .error err => .error (.error ("json decoding failed: " ++ err))
    | .ok rawData =>
      let key ← assertString (rawData.index "secret_access_key")
      let datestamp ← assertString (data.Get "date")
      let regionName ← assertString (data.Get "region_name")
      let serviceName ← assertString (data.Get "service_name")
      let signingKey := buildSignature key datestamp regionName serviceName
      let b64Key := Base64.EncodeToString signingKey
      .ok (some { Data := [("signature", .str b64Key)] })

def handleRead (req : Request) (data : FieldData) : Result × Storage :=
  (handleReadResult req data, req.Storage)

/-- The body of `handleRawRead`; it leaves the storage as it is. -/
def handleRawReadResult (req : Request) (_data : FieldData) : Result :=
  -- Read the path
  let newPath := Strings.Replace req.Path "raw/" "" 1
  match req.Storage.Get newPath with
  | .error err => .error (.error ("read failed: " ++ err))
  -- Fast-path the no data case
  | .ok none => .ok none
  | .ok (some out) =>
    -- Decode the data
    match Json.Unmarshal out.Value with
    | .error err => .error (.error ("json decoding failed: " ++ err))
    | .ok rawData => .ok (some { Data := [("secret_access_key", rawData.index "secret_access_key")] })

def handleRawRead (req : Request) (data : FieldData) : Result × Storage :=
  (handleRawReadResult req data, req.Storage)

def pathReadRawKey : Path where
  Pattern := .lit "raw/" :: GenericNameRegex "key_id"
  Fields := Fields
  Callbacks := [(.ReadOperation, handleRawRead)]

def pathWriteStandardKey : Path where
  Pattern := GenericNameRegex "key_id"
  Fields := Fields
  Callbacks := [
    (.WriteOperation, handleWrite),
    (.ReadOperation, handleRead),
    (.DeleteOperation, handleDelete)]

def pathStandardKey : Path where
  Pattern := GenericNameRegex "key_id" ++
    .lit "/" :: GenericNameRegex "date" ++
    .lit "/" :: GenericNameRegex "service_name" ++
    .lit "/" :: GenericNameRegex "region_name"
  Fields := Fields
  Callbacks := [(.ReadOperation, handleRead)]

def awssignatureHelp : String := ""

def Backend : Framework.Backend where
  Help := awssignatureHelp.trim
  PathsSpecial := { Root := ["raw/*"] }
  Paths := [pathStandardKey, pathWriteStandardKey, pathReadRawKey]

end Awssignature

namespace Framework

/-- The property of a name grammar that separates path segments: no generic
name contains a slash. -/
def NoSlash (nameRe : List Char → Bool) : Prop :=
  ∀ w, nameRe w = true → '/' ∉ w

/-- The number of slashes in the literal text of a pattern. -/
def slashes : List Pat → Nat
  | [] => 0
  | .lit s :: ps => s.data.count '/' + slashes ps
  | .name _ :: ps => slashes ps

/-- Every named group of the pattern is followed by literal text that begins
with a slash, or ends the pattern. -/
def Separated : List Pat → Bool
  | [] => true
  | .lit _ :: ps => Separated ps
  | [.name _] => true
  | .name _ :: .lit s :: ps => s.data.head? = some '/' && Separated ps
  | .name _ :: .name _ :: _ => false

end Framework

namespace Strings

/-- Cuts a text at every occurrence of the separator character. -/
def splitChars (sep : Char) : List Char → List (List Char)
  | [] => [[]]
  | c :: cs =>
    if c = sep then [] :: splitChars sep cs
    else
      match splitChars sep cs with
      | [] => [[c]]
      | s :: ss => (c :: s) :: ss

/-- The function `strings.Split(s, sep)` for a separator of one character. -/
def Split (s : String) (sep : Char) : List String :=
  (splitChars sep s.data).map String.mk

end Strings

namespace Framework

/-- The method `Regexp.MatchString` of a compiled pattern: whether some part
of the text matches the (unanchored) pattern. -/
def MatchString (nameRe : List Char → Bool) (pattern : List Pat) (s : String) : Bool :=
  (splits s.data).any fun p => (splits p.2).any fun q => !(matchAll nameRe pattern q.1).isEmpty

/-- The names that `TestGenericNameRegex` expects to match. -/
def validNames : List String := ["foo", "bar", "en", "us"]

/-- The test `TestGenericNameRegex` (`path_test.go`): it passes when every
valid name matches the pattern `GenericNameRegex("name")`. -/
def TestGenericNameRegex (nameRe : List Char → Bool) : Bool :=
  validNames.all fun name => MatchString nameRe (GenericNameRegex "name") name

end Framework

namespace Logical

/-- Whether the storage holds an entry under the key. -/
def Storage.Has (s : Storage) (key : String) : Bool :=
  (s.find? fun e => e.Key = key).isSome

end Logical

namespace Awssignature

open Logical Framework

/-- The storage after the backend has served a sequence of requests in order,
each on the storage left by the one before. -/
def serve (nameRe : List Char → Bool) (st : Storage) : List Request → Storage
  | [] => st
  | req :: rest =>
    serve nameRe (HandleRequest nameRe Awssignature.Backend { req with Storage := st }).2 rest

/-- Whether the last successful WRITE or DELETE addressed to `k` in a sequence
of requests is a WRITE; `init` when there is none.  A WRITE succeeds when its
attribute bag is not empty. -/
def lastWrite (k : String) (init : Bool) : List Request → Bool
  | [] => init
  | req :: rest =>
    lastWrite k
      (if req.Path = k then
        match req.Operation with
        | .WriteOperation => if req.Data.length = 0 then init else true
        | .DeleteOperation => false
        | .ReadOperation => init
      else init) rest

end Awssignature

/-! ## encoding/base64, decoding -/

namespace Base64

/-- The 6-bit value of a character of the standard alphabet. -/
def decodeMap (c : Char) : Option Nat :=
  if encodeStd.contains c then some (encodeStd.indexOf c) else none

/-- The characters that decoding skips: `\n` and `\r`. -/
def isNewline (c : Char) : Bool := c = '\n' || c = '\r'

/-- Decodes padded quanta of four characters: full quanta, then at most one
quantum ending in `==` or `=`; anything else is corrupt input. -/
def decodeQuanta : List Char → Except String Bytes
  | [] => .ok []
  | a :: b :: c :: d :: rest =>
    match decodeMap a, decodeMap b with
    | some x, some y =>
      if c = '=' then
        if d = '=' ∧ rest = [] then .ok [x * 4 + y / 16] else .error "illegal base64 data"
      else
        match decodeMap c with
        | none => .error "illegal base64 data"
        | some z =>
          if d = '=' then
            if rest = [] then .ok [x * 4 + y / 16, y % 16 * 16 + z / 4]
            else .error "illegal base64 data"
          else
            match decodeMap d with
            | none => .error "illegal base64 data"
            | some w =>
              match decodeQuanta rest with
              | .error e => .error e
              | .ok bs => .ok ((x * 4 + y / 16) :: (y % 16 * 16 + z / 4) :: (z % 4 * 64 + w) :: bs)
    | _, _ => .error "illegal base64 data"
  | _ => .error "illegal base64 data"

/-- The method `StdEncoding.DecodeString`: new-line characters are removed,
then the padded quanta are decoded. -/
def DecodeString (s : String) : Except String Bytes :=
  decodeQuanta (s.data.filter fun c => !isNewline c)

end Base64

/-! ## The `pgpkeys` helper (`helper/pgpkeys/flag.go`) -/

namespace Pgpkeys

open Logical

/-- An opened file: what reading it to the end yields, the contents or an
error. -/
abbrev File := Except String Bytes

/-- The file system as `os.Open` sees it: a path opens a file or fails. -/
abbrev FileSystem := String → Except String File

/-- The value of `buf.String()`: the text with the bytes of the buffer as
character codes. -/
def bufString (buf : Bytes) : String := ⟨buf.map Char.ofNat⟩

/-- The function `ReadPGPFile`.  The index expression `path[0]` panics on the
empty path; the byte `@` is the first byte of a path exactly when it is its
first character, and `path[1:]` then drops that character. -/
def ReadPGPFile (fs : FileSystem) (path : String) : Except Fault String :=
  match path.data with
  | [] => .error (.panic "runtime error: index out of range")
  | c :: rest =>
    let path : String := if c = '@' then ⟨rest⟩ else path
    match fs path with
    | .error err => .error (.error err)
    | .ok f =>
      match f with
      | .error err => .error (.error err)
      | .ok buf =>
        match Base64.DecodeString (bufString buf) with
        | .ok _ => .ok (bufString buf)
        | .error _ => .ok (Base64.EncodeToString buf)

/-- The type `PubKeyFilesFlag`, a list of keys. -/
abbrev PubKeyFilesFlag := List String

/-- The function `strings.TrimPrefix`. -/
def TrimPrefix (s pre : String) : String :=
  if pre.data.isPrefixOf s.data then ⟨s.data.drop pre.data.length⟩ else s

/-- The loop of `Set` over the split values: the error returned, if any, and
the flag as the loop leaves it. -/
def setLoop (kbPrefix : String) (keybaseMap : List (String × String)) (fs : FileSystem) :
    PubKeyFilesFlag → List String → Option Fault × PubKeyFilesFlag
  | p, [] => (none, p)
  | p, keyfile :: rest =>
    if kbPrefix.data.isPrefixOf keyfile.data then
      let key := (keybaseMap.lookup keyfile).getD ""
      if key = "" then
        (some (.error ("key for keybase user " ++ TrimPrefix keyfile kbPrefix
          ++ " was not found in the map")), p)
      else setLoop kbPrefix keybaseMap fs (p ++ [key]) rest
    else
      match ReadPGPFile fs keyfile with
      | .error err => (some err, p)
      | .ok pgpStr => setLoop kbPrefix keybaseMap fs (p ++ [pgpStr]) rest

/-- The method `PubKeyFilesFlag.Set`.  The constant `kbPrefix` and the function
`FetchKeybasePubkeys`, which are not part of the sources, are parameters. -/
def Set (kbPrefix : String)
    (FetchKeybasePubkeys : List String → Except String (List (String × String)))
    (fs : FileSystem) (p : PubKeyFilesFlag) (value : String) :
    Option Fault × PubKeyFilesFlag :=
  if p.length > 0 then (some (.error "pgp-keys can only be specified once"), p)
  else
    let splitValues := Strings.Split value ','
    match FetchKeybasePubkeys splitValues with
    | .error err => (some (.error err), p)
    | .ok keybaseMap => setLoop kbPrefix keybaseMap fs p splitValues

end Pgpkeys

/-! # Theorems -/

namespace Json

/-! ### Decoding inverts encoding -/

theorem hexVal_hexDigit : ∀ d, d < 16 → hexVal (hexDigit d) = some d := by decide

theorem hex4_escape (n : Nat) (h : n < 65536) :
    hex4 (hexDigit (n / 4096 % 16)) (hexDigit (n / 256 % 16)) (hexDigit (n / 16 % 16))
      (hexDigit (n % 16)) = some n := by
  unfold hex4
  rw [hexVal_hexDigit _ (Nat.mod_lt _ (by norm_num)), hexVal_hexDigit _ (Nat.mod_lt _ (by norm_num)),
    hexVal_hexDigit _ (Nat.mod_lt _ (by norm_num)), hexVal_hexDigit _ (Nat.mod_lt _ (by norm_num))]
  simp only [Option.some.injEq]
  omega

theorem char_not_surrogate (c : Char) : ¬ (0xD800 ≤ c.toNat ∧ c.toNat < 0xE000) := by
  have h := c.valid
  unfold UInt32.isValidChar Nat.isValidChar at h
  unfold Char.toNat
  omega

theorem readEscape_escapeU (c : Char) (h : c.toNat < 65536) (tail : List Char) :
    readEscape (('u' :: (escapeU c.toNat).drop 2) ++ tail) = some (c, tail) := by
  have hs := char_not_surrogate c
  have h1 : ¬ (0xD800 ≤ c.toNat ∧ c.toNat < 0xDC00) := by omega
  have h2 : ¬ (0xDC00 ≤ c.toNat ∧ c.toNat < 0xE000) := by omega
  simp only [escapeU, List.drop_succ_cons, List.drop_zero, List.cons_append, List.nil_append,
    readEscape, if_true, readU, hex4_escape _ h, h1, h2, if_false, Char.ofNat_toNat]

theorem parseStringBody_escapeChar (c : Char) (fuel : Nat) (tail : List Char) :
    parseStringBody (fuel + 1) (escapeChar c ++ tail)
      = (parseStringBody fuel tail).map fun p => (c :: p.1, p.2) := by
  unfold escapeChar
  split_ifs with h1 h2 h3 h4 h5 h6
  · subst h1; simp [parseStringBody, readEscape, unescape]
  · subst h2; simp [parseStringBody, readEscape, unescape]
  · subst h3; simp [parseStringBody, readEscape, unescape]
  · subst h4; simp [parseStringBody, readEscape, unescape]
  · subst h5; simp [parseStringBody, readEscape, unescape]
  · have hlt : c.toNat < 65536 := by
      rcases h6 with h | h | h | h | h | h
      · omega
      · subst h; decide
      · subst h; decide
      · subst h; decide
      · omega
      · omega
    have := readEscape_escapeU c hlt tail
    simp only [escapeU, List.drop_succ_cons, List.drop_zero, List.cons_append,
      List.nil_append] at this
    simp only [escapeU, List.cons_append, List.nil_append]
    simp only [parseStringBody, show ¬ ('\\' = '"') by decide, if_false, if_true, this]
  · have hc : ¬ c.toNat < 0x20 := by
      intro h; exact h6 (Or.inl h)
    simp only [List.cons_append, List.nil_append]
    simp only [parseStringBody, h1, h2, hc, if_false]

theorem parseStringBody_encode (s : List Char) (rest : List Char) :
    ∀ fuel, s.length < fuel →
      parseStringBody fuel (s.flatMap escapeChar ++ '"' :: rest) = some (s, rest) := by
  induction s with
  | nil =>
    intro fuel h
    obtain ⟨f, rfl⟩ : ∃ f, fuel = f + 1 := ⟨fuel - 1, by simp at h; omega⟩
    simp [parseStringBody]
  | cons c s ih =>
    intro fuel h
    obtain ⟨f, rfl⟩ : ∃ f, fuel = f + 1 := ⟨fuel - 1, by omega⟩
    simp only [List.flatMap_cons, List.append_assoc]
    rw [parseStringBody_escapeChar, ih f (by simpa using h)]
    rfl

theorem escapeChar_length (c : Char) : 1 ≤ (escapeChar c).length := by
  unfold escapeChar escapeU
  split_ifs <;> simp

theorem flatMap_escape_length (s : List Char) : s.length ≤ (s.flatMap escapeChar).length := by
  induction s with
  | nil => simp
  | cons c s ih =>
    have := escapeChar_length c
    simp only [List.flatMap_cons, List.length_append, List.length_cons]
    omega

theorem parseString_encode (s : String) (rest : List Char) :
    parseString (s.data.flatMap escapeChar ++ '"' :: rest) = some (s, rest) := by
  unfold parseString
  rw [parseStringBody_encode]
  · rfl
  · have := flatMap_escape_length s.data
    simp only [List.length_append, List.length_cons]
    omega

theorem digitChar_isDigit : ∀ d, d < 10 → (Nat.digitChar d).isDigit = true := by decide

theorem digitChar_val : ∀ d, d < 10 → (Nat.digitChar d).toNat - 48 = d := by decide

theorem digitChar_ne_zero : ∀ d, d < 10 → 0 < d → Nat.digitChar d ≠ '0' := by decide

theorem parseDigits_cons_digit (acc d : Nat) (hd : d < 10) (cs : List Char) :
    parseDigits acc (Nat.digitChar d :: cs) = parseDigits (acc * 10 + d) cs := by
  simp only [parseDigits, digitChar_isDigit d hd, if_true, digitChar_val d hd]

theorem parseDigits_toDigitsCore (tail : List Char) :
    ∀ fuel n ds, n < fuel → ∃ k, ∀ acc,
      parseDigits acc (Nat.toDigitsCore 10 fuel n ds ++ tail)
        = parseDigits (acc * 10 ^ k + n) (ds ++ tail) := by
  intro fuel
  induction fuel with
  | zero => intro n ds h; omega
  | succ fuel ih =>
    intro n ds h
    have hd : n % 10 < 10 := Nat.mod_lt _ (by norm_num)
    by_cases h0 : n / 10 = 0
    · refine ⟨1, fun acc => ?_⟩
      simp only [Nat.toDigitsCore, h0, if_true, List.cons_append]
      rw [parseDigits_cons_digit _ _ hd]
      congr 1
      omega
    · obtain ⟨k, hk⟩ := ih (n / 10) (Nat.digitChar (n % 10) :: ds) (by omega)
      refine ⟨k + 1, fun acc => ?_⟩
      simp only [Nat.toDigitsCore, h0, if_false]
      rw [hk acc, List.cons_append, parseDigits_cons_digit _ _ hd]
      congr 1
      rw [pow_succ]
      have := Nat.div_add_mod n 10
      nlinarith

theorem toDigitsCore_head :
    ∀ fuel n ds, n < fuel → 0 < n → ∃ c cs,
      Nat.toDigitsCore 10 fuel n ds = c :: cs ∧ c.isDigit = true ∧ c ≠ '0' := by
  intro fuel
  induction fuel with
  | zero => intro n ds h; omega
  | succ fuel ih =>
    intro n ds h hpos
    have hd : n % 10 < 10 := Nat.mod_lt _ (by norm_num)
    by_cases h0 : n / 10 = 0
    · refine ⟨Nat.digitChar (n % 10), ds, ?_, digitChar_isDigit _ hd,
        digitChar_ne_zero _ hd (by omega)⟩
      simp only [Nat.toDigitsCore, h0, if_true]
    · obtain ⟨c, cs, hc⟩ := ih (n / 10) (Nat.digitChar (n % 10) :: ds) (by omega) (by omega)
      refine ⟨c, cs, ?_, hc.2⟩
      simp only [Nat.toDigitsCore, h0, if_false]
      exact hc.1

theorem parseDigits_stop (acc : Nat) (rest : List Char) (h : endsNumber rest = true) :
    parseDigits acc rest = (acc, rest) := by
  cases rest with
  | nil => rfl
  | cons c cs =>
    have hc : c.isDigit = false := by
      simp only [endsNumber, Bool.not_eq_true', Bool.or_eq_false_iff] at h
      exact h.1.1.1
    simp [parseDigits, hc]

theorem parseNat_toDigits (n : Nat) (rest : List Char) (h : endsNumber rest = true) :
    parseNat (Nat.toDigits 10 n ++ rest) = some (n, rest) := by
  by_cases hn : n = 0
  · subst hn
    have h0 : Nat.toDigits 10 0 = ['0'] := by decide
    rw [h0]
    simp [parseNat]
  · obtain ⟨c, cs, hc, hdig, hne⟩ := toDigitsCore_head (n + 1) n [] (by omega) (by omega)
    obtain ⟨k, hk⟩ := parseDigits_toDigitsCore rest (n + 1) n [] (by omega)
    have h0 := hk 0
    unfold Nat.toDigits
    rw [hc] at h0 ⊢
    rw [List.cons_append] at h0 ⊢
    rw [parseDigits, if_pos hdig] at h0
    simp only [Nat.zero_mul, Nat.zero_add, List.nil_append] at h0
    rw [parseNat, if_neg hne, if_pos hdig, h0, parseDigits_stop _ _ h]

theorem toDigits_head (n : Nat) :
    ∃ c cs, Nat.toDigits 10 n = c :: cs ∧ c.isDigit = true := by
  by_cases hn : n = 0
  · subst hn
    exact ⟨'0', [], by decide, by decide⟩
  · obtain ⟨c, cs, hc, hdig, _⟩ := toDigitsCore_head (n + 1) n [] (by omega) (by omega)
    exact ⟨c, cs, hc, hdig⟩

theorem isDigit_ne (c : Char) (h : c.isDigit = true) :
    c ≠ '-' ∧ c ≠ '"' ∧ c ≠ '{' ∧ c ≠ 'n' ∧ c ≠ 't' ∧ c ≠ 'f' ∧ isSpace c = false := by
  refine ⟨?_, ?_, ?_, ?_, ?_, ?_, ?_⟩
  · rintro rfl; exact absurd h (by decide)
  · rintro rfl; exact absurd h (by decide)
  · rintro rfl; exact absurd h (by decide)
  · rintro rfl; exact absurd h (by decide)
  · rintro rfl; exact absurd h (by decide)
  · rintro rfl; exact absurd h (by decide)
  · simp only [isSpace, Bool.or_eq_false_iff, decide_eq_false_iff_not]
    refine ⟨⟨⟨?_, ?_⟩, ?_⟩, ?_⟩ <;> (rintro rfl; exact absurd h (by decide))

theorem parseInt_encodeInt (n : Int) (rest : List Char) (h : endsNumber rest = true) :
    parseInt (encodeInt n ++ rest) = some (n, rest) := by
  unfold encodeInt
  split_ifs with hneg
  · simp only [List.cons_append, parseInt, if_true, parseNat_toDigits _ _ h, h]
    simp only [Option.some.injEq, Prod.mk.injEq, and_true]
    omega
  · obtain ⟨c, cs, hc, hdig⟩ := toDigits_head n.natAbs
    have hp := parseNat_toDigits n.natAbs rest h
    rw [hc] at hp ⊢
    simp only [List.cons_append] at hp ⊢
    simp only [parseInt, (isDigit_ne c hdig).1, if_false, hp, h, if_true]
    simp only [Option.some.injEq, Prod.mk.injEq, and_true]
    omega

/-- The first character of an encoded integer. -/
theorem encodeInt_head (n : Int) :
    ∃ c cs, encodeInt n = c :: cs ∧ (c = '-' ∨ c.isDigit = true) := by
  unfold encodeInt
  split_ifs
  · exact ⟨'-', _, rfl, Or.inl rfl⟩
  · obtain ⟨c, cs, hc, hdig⟩ := toDigits_head n.natAbs
    exact ⟨c, cs, hc, Or.inr hdig⟩

theorem skipWs_cons (c : Char) (cs : List Char) (h : isSpace c = false) :
    skipWs (c :: cs) = c :: cs := by
  simp [skipWs, h]

theorem encodeMembers_cons (k : String) (v : Value) (fs : List (String × Value))
    (rest : List Char) :
    encodeMembers ((k, v) :: fs) ++ '}' :: rest
      = '"' :: (k.data.flatMap escapeChar ++ '"' :: ':' :: (encodeValue v ++
          (if fs.isEmpty then '}' :: rest else ',' :: (encodeMembers fs ++ '}' :: rest)))) := by
  rw [encodeMembers]
  cases fs <;> simp [encodeString]

mutual
theorem parseValue_encode : ∀ (v : Value) (fuel : Nat) (rest : List Char),
    v.size ≤ fuel → endsNumber rest = true →
    parseValue fuel (encodeValue v ++ rest) = some (v, rest)
  | .null, fuel, rest, hf, _ => by
    obtain ⟨f, rfl⟩ : ∃ f, fuel = f + 1 := ⟨fuel - 1, by simp [Value.size] at hf; omega⟩
    simp [encodeValue, parseValue, skipWs, isSpace, parseLit]
  | .bool b, fuel, rest, hf, _ => by
    obtain ⟨f, rfl⟩ : ∃ f, fuel = f + 1 := ⟨fuel - 1, by simp [Value.size] at hf; omega⟩
    cases b <;> simp [encodeValue, parseValue, skipWs, isSpace, parseLit]
  | .num n, fuel, rest, hf, hr => by
    obtain ⟨f, rfl⟩ : ∃ f, fuel = f + 1 := ⟨fuel - 1, by simp [Value.size] at hf; omega⟩
    have hp := parseInt_encodeInt n rest hr
    obtain ⟨c, cs, hc, hhead⟩ := encodeInt_head n
    rw [encodeValue]
    rw [hc] at hp ⊢
    rw [List.cons_append] at hp ⊢
    have hfacts : c ≠ '"' ∧ c ≠ '{' ∧ c ≠ 'n' ∧ c ≠ 't' ∧ c ≠ 'f' ∧ isSpace c = false := by
      rcases hhead with rfl | hd
      · decide
      · exact (isDigit_ne c hd).2
    obtain ⟨h1, h2, h3, h4, h5, h6⟩ := hfacts
    rw [parseValue, skipWs_cons _ _ h6]
    simp only [h1, h2, h3, h4, h5, if_false, hp, Option.map_some']
  | .str s, fuel, rest, hf, _ => by
    obtain ⟨f, rfl⟩ : ∃ f, fuel = f + 1 := ⟨fuel - 1, by simp [Value.size] at hf; omega⟩
    simp only [encodeValue, encodeString, List.cons_append, List.append_assoc,
      List.singleton_append, List.nil_append]
    rw [parseValue, skipWs_cons _ _ (by decide)]
    simp only [if_true, parseString_encode, Option.map_some']
  | .obj fs, fuel, rest, hf, _ => by
    obtain ⟨f, rfl⟩ : ∃ f, fuel = f + 1 := ⟨fuel - 1, by simp [Value.size] at hf; omega⟩
    have hf1 : membersSize fs ≤ f := by simp [Value.size] at hf; omega
    simp only [encodeValue, List.cons_append, List.append_assoc, List.singleton_append,
      List.nil_append]
    rw [parseValue, skipWs_cons _ _ (by decide)]
    simp only [show ¬ ('{' = '"') by decide, if_false, if_true]
    cases fs with
    | nil => simp [encodeMembers, skipWs, isSpace]
    | cons kv fs1 =>
      obtain ⟨k, v⟩ := kv
      have hm := parseMembers_encode ((k, v) :: fs1) f rest (by simp) hf1
      rw [encodeMembers_cons] at hm ⊢
      rw [skipWs_cons _ _ (by decide)]
      simp only [show ¬ ('"' = '}') by decide, if_false, hm, Option.map_some']
theorem parseMembers_encode : ∀ (fs : List (String × Value)) (fuel : Nat) (rest : List Char),
    fs ≠ [] → membersSize fs ≤ fuel →
    parseMembers fuel (encodeMembers fs ++ '}' :: rest) = some (fs, rest)
  | [], _, _, hne, _ => absurd rfl hne
  | (k, v) :: fs, fuel, rest, _, hf => by
    obtain ⟨f, rfl⟩ : ∃ f, fuel = f + 1 := ⟨fuel - 1, by simp [membersSize] at hf; omega⟩
    have hv : v.size ≤ f := by simp [membersSize] at hf; omega
    have hfs : membersSize fs ≤ f := by simp [membersSize] at hf; omega
    rw [encodeMembers_cons, parseMembers, skipWs_cons _ _ (by decide)]
    simp only [if_true, parseString_encode]
    rw [skipWs_cons _ _ (by decide)]
    simp only [if_true]
    cases fs with
    | nil =>
      simp only [List.isEmpty_nil, if_true]
      rw [parseValue_encode v f _ hv (by simp [endsNumber])]
      simp only [skipWs_cons _ _ (show isSpace '}' = false by decide),
        show ¬ ('}' = ',') by decide, if_false, if_true]
    | cons kv fs1 =>
      simp only [List.isEmpty_cons, Bool.false_eq_true, if_false]
      rw [parseValue_encode v f _ hv (by simp [endsNumber])]
      simp only [skipWs_cons _ _ (show isSpace ',' = false by decide), if_true]
      rw [parseMembers_encode (kv :: fs1) f rest (by simp) hfs]
      rfl
end

theorem encodeInt_length (n : Int) : 1 ≤ (encodeInt n).length := by
  obtain ⟨c, cs, hc, _⟩ := encodeInt_head n
  rw [hc]
  simp

mutual
theorem size_le_length : ∀ (v : Value), v.size ≤ (encodeValue v).length
  | .null => by simp [Value.size, encodeValue]
  | .bool b => by cases b <;> simp [Value.size, encodeValue]
  | .num n => by
    have := encodeInt_length n
    simpa [Value.size, encodeValue] using this
  | .str s => by simp [Value.size, encodeValue, encodeString]
  | .obj fs => by
    have := membersSize_le_length fs
    simp only [Value.size, encodeValue, List.length_cons, List.length_append, List.length_nil]
    omega
theorem membersSize_le_length : ∀ (fs : List (String × Value)),
    membersSize fs ≤ (encodeMembers fs).length
  | [] => by simp [membersSize]
  | (k, v) :: fs => by
    have h1 := size_le_length v
    have h2 := membersSize_le_length fs
    rw [membersSize, encodeMembers]
    cases fs with
    | nil =>
      simp only [membersSize, encodeString, List.isEmpty_nil, if_true, List.length_cons,
        List.length_append, List.length_nil]
      omega
    | cons kv fs1 =>
      simp only [encodeString, List.isEmpty_cons, Bool.false_eq_true, if_false, List.length_cons,
        List.length_append, List.length_nil]
      omega
end

/-- Decoding the encoding of an attribute bag returns the bag. -/
theorem Unmarshal_Marshal (m : Bag) :
    ∃ buf, Marshal m = .ok buf ∧ Unmarshal buf = .ok m := by
  refine ⟨⟨encodeValue (.obj m)⟩, rfl, ?_⟩
  have hsz := size_le_length (.obj m)
  have hp := parseValue_encode (.obj m) ((encodeValue (.obj m)).length + 1) [] (by omega) rfl
  rw [List.append_nil] at hp
  unfold Unmarshal
  simp only [String.length, hp, skipWs, if_true]

end Json

/-! ## Path matching -/

namespace Framework

theorem genericName_noSlash : NoSlash genericName := by
  intro w hw hmem
  simp only [genericName, Bool.and_eq_true, List.all_eq_true] at hw
  exact absurd (hw.2 _ hmem) (by decide)

theorem mem_splits (cs : List Char) (p : List Char × List Char) :
    p ∈ splits cs ↔ p.1 ++ p.2 = cs := by
  induction cs generalizing p with
  | nil =>
    obtain ⟨a, b⟩ := p
    simp [splits]
  | cons c cs ih =>
    obtain ⟨a, b⟩ := p
    simp only [splits, List.mem_append, List.mem_map, List.mem_singleton, Prod.mk.injEq]
    constructor
    · rintro (⟨q, hq, rfl, rfl⟩ | ⟨rfl, rfl⟩)
      · rw [List.cons_append, (ih q).1 hq]
      · rfl
    · intro h
      cases a with
      | nil => exact Or.inr ⟨rfl, h⟩
      | cons a0 a1 =>
        rw [List.cons_append] at h
        injection h with h1 h2
        subst h1
        exact Or.inl ⟨(a1, b), (ih (a1, b)).2 h2, rfl, rfl⟩

theorem Matches.nil_inv {nameRe : List Char → Bool} {cs : List Char} {caps : Captures}
    (h : Matches nameRe [] cs caps) : cs = [] ∧ caps = [] := by
  cases h
  exact ⟨rfl, rfl⟩

theorem Matches.lit_inv {nameRe : List Char → Bool} {s : String} {ps : List Pat}
    {cs : List Char} {caps : Captures} (h : Matches nameRe (.lit s :: ps) cs caps) :
    ∃ rest, cs = s.data ++ rest ∧ Matches nameRe ps rest caps := by
  cases h with
  | lit _ _ rest _ hm => exact ⟨rest, rfl, hm⟩

theorem Matches.name_inv {nameRe : List Char → Bool} {f : String} {ps : List Pat}
    {cs : List Char} {caps : Captures} (h : Matches nameRe (.name f :: ps) cs caps) :
    ∃ w rest caps1, cs = w ++ rest ∧ caps = (f, ⟨w⟩) :: caps1 ∧ nameRe w = true ∧
      Matches nameRe ps rest caps1 := by
  cases h with
  | name _ _ w rest caps1 hw hm => exact ⟨w, rest, caps1, rfl, rfl, hw, hm⟩

/-- The matcher enumerates exactly the full matches. -/
theorem mem_matchAll (nameRe : List Char → Bool) :
    ∀ (ps : List Pat) (cs : List Char) (caps : Captures),
      caps ∈ matchAll nameRe ps cs ↔ Matches nameRe ps cs caps := by
  intro ps
  induction ps with
  | nil =>
    intro cs caps
    cases cs with
    | nil =>
      simp only [matchAll, List.isEmpty_nil, if_true, List.mem_singleton]
      exact ⟨fun h => h ▸ Matches.nil, fun h => h.nil_inv.2⟩
    | cons c cs =>
      simp only [matchAll, List.isEmpty_cons, Bool.false_eq_true, if_false, List.not_mem_nil,
        false_iff]
      intro h
      exact absurd h.nil_inv.1 (by simp)
  | cons p ps ih =>
    intro cs caps
    cases p with
    | lit s =>
      simp only [matchAll]
      constructor
      · intro h
        split_ifs at h with hp
        · have hpre : s.data <+: cs := List.isPrefixOf_iff_prefix.1 hp
          obtain ⟨t, rfl⟩ := hpre
          rw [List.drop_left] at h
          exact Matches.lit s ps t caps ((ih _ _).1 h)
        · exact absurd h (List.not_mem_nil _)
      · intro h
        obtain ⟨rest, rfl, hm⟩ := h.lit_inv
        have hp : s.data.isPrefixOf (s.data ++ rest) = true :=
          List.isPrefixOf_iff_prefix.2 (List.prefix_append _ _)
        rw [if_pos hp, List.drop_left]
        exact (ih _ _).2 hm
    | name f =>
      simp only [matchAll, List.mem_flatMap]
      constructor
      · rintro ⟨q, hq, hc⟩
        split_ifs at hc with hn
        · obtain ⟨caps1, hc1, rfl⟩ := List.mem_map.1 hc
          rw [← (mem_splits cs q).1 hq]
          exact Matches.name f ps q.1 q.2 caps1 hn ((ih _ _).1 hc1)
        · exact absurd hc (List.not_mem_nil _)
      · intro h
        obtain ⟨w, rest, caps1, rfl, rfl, hw, hm⟩ := h.name_inv
        refine ⟨(w, rest), (mem_splits _ _).2 rfl, ?_⟩
        simp only [hw, if_true]
        exact List.mem_map.2 ⟨caps1, (ih _ _).2 hm, rfl⟩

/-- A matched path has exactly the slashes of the pattern's literal text. -/
theorem Matches.count_slash {nameRe : List Char → Bool} (hn : NoSlash nameRe)
    {ps : List Pat} {cs : List Char} {caps : Captures} (h : Matches nameRe ps cs caps) :
    cs.count '/' = slashes ps := by
  induction h with
  | nil => rfl
  | lit s ps rest caps _ ih => simp only [List.count_append, slashes, ih]
  | name f ps w rest caps hw _ ih =>
    simp only [List.count_append, slashes, ih, List.count_eq_zero_of_not_mem (hn w hw),
      Nat.zero_add]

/-- Two slash-free words followed by a slash and equal as a whole are equal. -/
theorem first_slash : ∀ (w1 w2 r1 r2 : List Char), '/' ∉ w1 → '/' ∉ w2 →
    w1 ++ '/' :: r1 = w2 ++ '/' :: r2 → w1 = w2 ∧ r1 = r2
  | [], [], r1, r2, _, _, h => by simpa using h
  | [], c :: w2, r1, r2, _, h2, h => by
    simp only [List.nil_append, List.cons_append, List.cons.injEq] at h
    exact absurd (h.1 ▸ List.mem_cons_self _ _) h2
  | c :: w1, [], r1, r2, h1, _, h => by
    simp only [List.nil_append, List.cons_append, List.cons.injEq] at h
    exact absurd (h.1 ▸ List.mem_cons_self _ _) h1
  | c :: w1, d :: w2, r1, r2, h1, h2, h => by
    simp only [List.cons_append, List.cons.injEq] at h
    have := first_slash w1 w2 r1 r2 (fun hm => h1 (List.mem_cons_of_mem _ hm))
      (fun hm => h2 (List.mem_cons_of_mem _ hm)) h.2
    exact ⟨by rw [h.1, this.1], this.2⟩

/-- The captures of a match are determined by the path, for a pattern whose
named groups are separated by slashes. -/
theorem Matches.unique {nameRe : List Char → Bool} (hn : NoSlash nameRe) :
    ∀ (ps : List Pat) (cs : List Char) (c1 c2 : Captures), Separated ps = true →
      Matches nameRe ps cs c1 → Matches nameRe ps cs c2 → c1 = c2
  | [], _, _, _, _, h1, h2 => by rw [h1.nil_inv.2, h2.nil_inv.2]
  | .lit s :: ps, cs, c1, c2, hs, h1, h2 => by
    obtain ⟨r1, rfl, m1⟩ := h1.lit_inv
    obtain ⟨r2, e2, m2⟩ := h2.lit_inv
    have := List.append_cancel_left e2
    subst this
    exact Matches.unique hn ps _ c1 c2 (by simpa [Separated] using hs) m1 m2
  | [.name f], cs, c1, c2, _, h1, h2 => by
    obtain ⟨w1, r1, d1, rfl, rfl, _, m1⟩ := h1.name_inv
    obtain ⟨w2, r2, d2, e2, rfl, _, m2⟩ := h2.name_inv
    obtain ⟨rfl, rfl⟩ := m1.nil_inv
    obtain ⟨rfl, rfl⟩ := m2.nil_inv
    simp only [List.append_nil] at e2
    rw [e2]
  | .name f :: .lit s :: ps, cs, c1, c2, hs, h1, h2 => by
    obtain ⟨w1, r1, d1, rfl, rfl, hw1, m1⟩ := h1.name_inv
    obtain ⟨w2, r2, d2, e2, rfl, hw2, m2⟩ := h2.name_inv
    simp only [Separated, Bool.and_eq_true, decide_eq_true_eq] at hs
    obtain ⟨t1, rfl, n1⟩ := m1.lit_inv
    obtain ⟨t2, rfl, n2⟩ := m2.lit_inv
    obtain ⟨s0, hs0⟩ : ∃ s0, s.data = '/' :: s0 := by
      cases hd : s.data with
      | nil => rw [hd] at hs; simp at hs
      | cons a s0 => rw [hd] at hs; simp at hs; exact ⟨s0, by rw [hs.1]⟩
    rw [hs0] at e2
    simp only [List.cons_append] at e2
    obtain ⟨hw, ht⟩ := first_slash w1 w2 _ _ (hn w1 hw1) (hn w2 hw2) e2
    have ht2 := List.append_cancel_left ht
    subst hw ht2
    rw [Matches.unique hn ps _ d1 d2 hs.2 n1 n2]
  | .name f :: .name g :: ps, _, _, _, hs, _, _ => by simp [Separated] at hs

/-- The matcher returns the match of a separated pattern, when there is one. -/
theorem head_matchAll {nameRe : List Char → Bool} (hn : NoSlash nameRe) {ps : List Pat}
    {cs : List Char} {caps : Captures} (hs : Separated ps = true)
    (h : Matches nameRe ps cs caps) : (matchAll nameRe ps cs).head? = some caps := by
  have hmem := (mem_matchAll nameRe ps cs caps).2 h
  cases hl : matchAll nameRe ps cs with
  | nil => rw [hl] at hmem; exact absurd hmem (List.not_mem_nil _)
  | cons c0 l =>
    have h0 : Matches nameRe ps cs c0 :=
      (mem_matchAll nameRe ps cs c0).1 (hl ▸ List.mem_cons_self _ _)
    rw [List.head?_cons, Matches.unique hn ps cs c0 caps hs h0 h]

/-- The matcher finds nothing in a path with the wrong number of slashes. -/
theorem head_matchAll_none {nameRe : List Char → Bool} (hn : NoSlash nameRe) {ps : List Pat}
    {cs : List Char} (h : cs.count '/' ≠ slashes ps) : (matchAll nameRe ps cs).head? = none := by
  cases hl : matchAll nameRe ps cs with
  | nil => rfl
  | cons c0 l =>
    have h0 : Matches nameRe ps cs c0 :=
      (mem_matchAll nameRe ps cs c0).1 (hl ▸ List.mem_cons_self _ _)
    exact absurd (h0.count_slash hn) h

end Framework

namespace Awssignature

open Logical Framework

theorem slash_data : "/".data = ['/'] := rfl

theorem raw_data : "raw/".data = ['r', 'a', 'w', '/'] := rfl

/-- The four-segment path matches the pattern of `pathStandardKey`. -/
theorem matches_standard {nameRe : List Char → Bool} {k d v r : List Char}
    (hk : nameRe k = true) (hd : nameRe d = true) (hv : nameRe v = true)
    (hr : nameRe r = true) :
    Matches nameRe pathStandardKey.Pattern (k ++ '/' :: (d ++ '/' :: (v ++ '/' :: r)))
      [("key_id", ⟨k⟩), ("date", ⟨d⟩), ("service_name", ⟨v⟩), ("region_name", ⟨r⟩)] := by
  have h4 : Matches nameRe [.name "region_name"] r [("region_name", ⟨r⟩)] := by
    have := Matches.name "region_name" [] r [] [] hr Matches.nil
    rwa [List.append_nil] at this
  have h3 := Matches.name "service_name" _ v _ _ hv (Matches.lit "/" _ _ _ h4)
  have h2 := Matches.name "date" _ d _ _ hd (Matches.lit "/" _ _ _ h3)
  exact Matches.name "key_id" _ k _ _ hk (Matches.lit "/" _ _ _ h2)

/-- The one-segment path matches the pattern of `pathWriteStandardKey`. -/
theorem matches_key {nameRe : List Char → Bool} {k : List Char} (hk : nameRe k = true) :
    Matches nameRe pathWriteStandardKey.Pattern k [("key_id", ⟨k⟩)] := by
  have := Matches.name "key_id" [] k [] [] hk Matches.nil
  rwa [List.append_nil] at this

/-- The path `raw/k` matches the pattern of `pathReadRawKey`. -/
theorem matches_raw {nameRe : List Char → Bool} {k : List Char} (hk : nameRe k = true) :
    Matches nameRe pathReadRawKey.Pattern ('r' :: 'a' :: 'w' :: '/' :: k) [("key_id", ⟨k⟩)] := by
  have h1 : Matches nameRe [.name "key_id"] k [("key_id", ⟨k⟩)] := by
    have := Matches.name "key_id" [] k [] [] hk Matches.nil
    rwa [List.append_nil] at this
  exact Matches.lit "raw/" _ _ _ h1

theorem count_slash_of_name {nameRe : List Char → Bool} (hn : NoSlash nameRe) {w : List Char}
    (hw : nameRe w = true) : w.count '/' = 0 :=
  List.count_eq_zero_of_not_mem (hn w hw)

theorem route_standard {nameRe : List Char → Bool} (hn : NoSlash nameRe) {k d v r : String}
    (hk : nameRe k.data = true) (hd : nameRe d.data = true) (hv : nameRe v.data = true)
    (hr : nameRe r.data = true) :
    route nameRe Awssignature.Backend.Paths (k ++ "/" ++ d ++ "/" ++ v ++ "/" ++ r)
      = some (pathStandardKey,
          [("key_id", k), ("date", d), ("service_name", v), ("region_name", r)]) := by
  have hm := matches_standard hk hd hv hr
  have hh := head_matchAll hn (by decide) hm
  simp only [Awssignature.Backend, route, String.data_append, slash_data, List.append_assoc,
    List.singleton_append, List.cons_append, List.nil_append, hh]

theorem route_key {nameRe : List Char → Bool} (hn : NoSlash nameRe) {k : String}
    (hk : nameRe k.data = true) :
    route nameRe Awssignature.Backend.Paths k = some (pathWriteStandardKey, [("key_id", k)]) := by
  have h1 : (matchAll nameRe pathStandardKey.Pattern k.data).head? = none :=
    head_matchAll_none hn (by rw [count_slash_of_name hn hk]; decide)
  have h2 := head_matchAll hn (by decide) (matches_key hk)
  simp only [Awssignature.Backend, route, h1, h2]

theorem route_raw {nameRe : List Char → Bool} (hn : NoSlash nameRe) {k : String}
    (hk : nameRe k.data = true) :
    route nameRe Awssignature.Backend.Paths ("raw/" ++ k) = some (pathReadRawKey, [("key_id", k)]) := by
  have hc : ('r' :: 'a' :: 'w' :: '/' :: k.data).count '/' = 1 := by
    simp [List.count_cons, count_slash_of_name hn hk]
  have h1 : (matchAll nameRe pathStandardKey.Pattern ('r' :: 'a' :: 'w' :: '/' :: k.data)).head?
      = none := head_matchAll_none hn (by rw [hc]; decide)
  have h2 : (matchAll nameRe pathWriteStandardKey.Pattern
      ('r' :: 'a' :: 'w' :: '/' :: k.data)).head? = none :=
    head_matchAll_none hn (by rw [hc]; decide)
  have h3 := head_matchAll hn (by decide) (matches_raw hk)
  simp only [Awssignature.Backend, route, String.data_append, raw_data, List.cons_append, List.nil_append,
    h1, h2, h3]

end Awssignature

/-! ## Storage, strings and handler lemmas -/

namespace Logical

theorem Storage.get_put (st : Storage) (e : StorageEntry) :
    ∃ st1, st.Put e = .ok st1 ∧ st1.Get e.Key = .ok (some e) := by
  refine ⟨_, rfl, ?_⟩
  simp [Storage.Get, List.find?]

theorem find_filter_of_imp {α : Type} (p q : α → Bool) (h : ∀ x, p x = true → q x = true) :
    ∀ l : List α, (l.filter q).find? p = l.find? p
  | [] => rfl
  | a :: l => by
    have ih := find_filter_of_imp p q h l
    by_cases hq : q a = true
    · rw [List.filter_cons_of_pos hq, List.find?_cons, List.find?_cons, ih]
    · have hp : p a = false := by
        cases hpa : p a with
        | false => rfl
        | true => exact absurd (h a hpa) hq
      rw [List.filter_cons_of_neg hq, List.find?_cons, hp, ih]

theorem Storage.get_put_ne (st : Storage) (e : StorageEntry) (key : String) (h : key ≠ e.Key) :
    ∃ st1, st.Put e = .ok st1 ∧ st1.Get key = st.Get key := by
  refine ⟨_, rfl, ?_⟩
  have h1 : decide (e.Key = key) = false := decide_eq_false fun h2 => h h2.symm
  simp only [Storage.Get, List.find?_cons, h1]
  rw [find_filter_of_imp]
  intro x hx
  have hx1 : x.Key = key := of_decide_eq_true hx
  exact decide_eq_true (hx1 ▸ h)

theorem Storage.get_delete_ne (st : Storage) (key other : String) (h : other ≠ key) :
    ∃ st1, st.Delete key = .ok st1 ∧ st1.Get other = st.Get other := by
  refine ⟨_, rfl, ?_⟩
  simp only [Storage.Get]
  rw [find_filter_of_imp]
  intro x hx
  have hx1 : x.Key = other := of_decide_eq_true hx
  exact decide_eq_true (hx1 ▸ h)

theorem Storage.filter_filter (st : Storage) (key : String) :
    (st.filter fun e => e.Key ≠ key).filter (fun e => e.Key ≠ key)
      = st.filter fun e => e.Key ≠ key := by
  simp [List.filter_filter]

theorem Storage.get_delete (st : Storage) (key : String) :
    ∃ st1, st.Delete key = .ok st1 ∧ st1.Get key = .ok none := by
  refine ⟨_, rfl, ?_⟩
  simp [Storage.Get, List.find?_eq_none]

end Logical

namespace Strings

/-- Removing the first `raw/` from `raw/k` leaves `k`. -/
theorem Replace_raw (k : String) : Replace ("raw/" ++ k) "raw/" "" 1 = k := by
  have h : ("raw/" ++ k).data = 'r' :: 'a' :: 'w' :: '/' :: k.data := rfl
  have h2 : "raw/".data = ['r', 'a', 'w', '/'] := rfl
  have h3 : "".data = [] := rfl
  unfold Replace
  rw [h, h2, h3]
  simp [replaceN, List.isPrefixOf]

end Strings

namespace Awssignature

open Logical Framework

/-- The outcome of the derivation in `handleRead` once the record is read. -/
theorem handleReadResult_ok (req : Request) (data : FieldData) (k d v r s : String)
    (out : StorageEntry) (rawData : Bag)
    (h1 : data.Raw.index "key_id" = .str k) (h2 : data.Get "date" = .str d)
    (h3 : data.Get "region_name" = .str r) (h4 : data.Get "service_name" = .str v)
    (hget : req.Storage.Get k = .ok (some out)) (hdec : Json.Unmarshal out.Value = .ok rawData)
    (hkey : rawData.get? "secret_access_key" = some (.str s)) :
    handleReadResult req data
      = .ok (some { Data := [("signature",
          .str (Base64.EncodeToString (buildSignature s d r v)))] }) := by
  have h5 : rawData.index "secret_access_key" = .str s := by
    simp [Bag.index, hkey]
  simp only [handleReadResult, h1, assertString, bind, Except.bind, hget, hdec, h5, h2, h3, h4]

/-- A read of an absent record returns the empty result. -/
theorem handleReadResult_absent (req : Request) (data : FieldData) (k : String)
    (h1 : data.Raw.index "key_id" = .str k) (hget : req.Storage.Get k = .ok none) :
    handleReadResult req data = .ok none := by
  simp only [handleReadResult, h1, assertString, bind, Except.bind, hget]

/-- A read of a decodable record whose `secret_access_key` is not a string
ends in a panic, at the type assertion. -/
theorem handleReadResult_malformed (req : Request) (data : FieldData) (k : String)
    (out : StorageEntry) (rawData : Bag) (h1 : data.Raw.index "key_id" = .str k)
    (hget : req.Storage.Get k = .ok (some out)) (hdec : Json.Unmarshal out.Value = .ok rawData)
    (hns : ∀ s, rawData.index "secret_access_key" ≠ .str s) :
    ∃ msg, handleReadResult req data = .error (.panic msg) := by
  simp only [handleReadResult, h1, assertString, bind, Except.bind, hget, hdec]
  cases hv : rawData.index "secret_access_key" with
  | str s => exact absurd hv (hns s)
  | null => exact ⟨_, rfl⟩
  | bool b => exact ⟨_, rfl⟩
  | num n => exact ⟨_, rfl⟩
  | obj fs => exact ⟨_, rfl⟩

/-- The field data built from the four captured segments. -/
theorem fields_standard (k d v r : String) (schema : List (String × FieldSchema)) :
    let data : FieldData :=
      { Raw := [("key_id", .str k), ("date", .str d), ("service_name", .str v),
          ("region_name", .str r)], Schema := schema }
    data.Raw.index "key_id" = .str k ∧ data.Get "date" = .str d ∧
      data.Get "region_name" = .str r ∧ data.Get "service_name" = .str v := by
  simp [Bag.index, FieldData.Get, Bag.get?]

/-- The field data built from the one captured segment. -/
theorem fields_key (k : String) (schema : List (String × FieldSchema)) :
    let data : FieldData := { Raw := [("key_id", .str k)], Schema := schema }
    data.Raw.index "key_id" = .str k ∧ data.Get "date" = .str "" ∧
      data.Get "region_name" = .str "" ∧ data.Get "service_name" = .str "" := by
  simp [Bag.index, FieldData.Get, Bag.get?]

/-- A request for a four-segment path is handled by `handleRead` on the
captured segments. -/
theorem HandleRequest_standard {nameRe : List Char → Bool} (hn : NoSlash nameRe)
    {k d v r : String} (hk : nameRe k.data = true) (hd : nameRe d.data = true)
    (hv : nameRe v.data = true) (hr : nameRe r.data = true) (body : Bag) (st : Storage) :
    HandleRequest nameRe Awssignature.Backend
        ⟨.ReadOperation, k ++ "/" ++ d ++ "/" ++ v ++ "/" ++ r, body, st⟩
      = handleRead ⟨.ReadOperation, k ++ "/" ++ d ++ "/" ++ v ++ "/" ++ r, body, st⟩
          { Raw := [("key_id", .str k), ("date", .str d), ("service_name", .str v),
              ("region_name", .str r)], Schema := Fields } := by
  simp only [HandleRequest, route_standard hn hk hd hv hr]
  rfl

/-- A read request for a one-segment path is handled by `handleRead`. -/
theorem HandleRequest_key_read {nameRe : List Char → Bool} (hn : NoSlash nameRe)
    {k : String} (hk : nameRe k.data = true) (body : Bag) (st : Storage) :
    HandleRequest nameRe Awssignature.Backend ⟨.ReadOperation, k, body, st⟩
      = handleRead ⟨.ReadOperation, k, body, st⟩
          { Raw := [("key_id", .str k)], Schema := Fields } := by
  simp only [HandleRequest, route_key hn hk]
  rfl

/-- A write request for a one-segment path is handled by `handleWrite`. -/
theorem HandleRequest_key_write {nameRe : List Char → Bool} (hn : NoSlash nameRe)
    {k : String} (hk : nameRe k.data = true) (body : Bag) (st : Storage) :
    HandleRequest nameRe Awssignature.Backend ⟨.WriteOperation, k, body, st⟩
      = handleWrite ⟨.WriteOperation, k, body, st⟩
          { Raw := [("key_id", .str k)], Schema := Fields } := by
  simp only [HandleRequest, route_key hn hk]
  rfl

/-- A delete request for a one-segment path is handled by `handleDelete`. -/
theorem HandleRequest_key_delete {nameRe : List Char → Bool} (hn : NoSlash nameRe)
    {k : String} (hk : nameRe k.data = true) (body : Bag) (st : Storage) :
    HandleRequest nameRe Awssignature.Backend ⟨.DeleteOperation, k, body, st⟩
      = handleDelete ⟨.DeleteOperation, k, body, st⟩
          { Raw := [("key_id", .str k)], Schema := Fields } := by
  simp only [HandleRequest, route_key hn hk]
  rfl

/-- A read request for `raw/k` is handled by `handleRawRead`. -/
theorem HandleRequest_raw {nameRe : List Char → Bool} (hn : NoSlash nameRe)
    {k : String} (hk : nameRe k.data = true) (body : Bag) (st : Storage) :
    HandleRequest nameRe Awssignature.Backend ⟨.ReadOperation, "raw/" ++ k, body, st⟩
      = handleRawRead ⟨.ReadOperation, "raw/" ++ k, body, st⟩
          { Raw := [("key_id", .str k)], Schema := Fields } := by
  simp only [HandleRequest, route_raw hn hk]
  rfl

/-- The outcome of `handleWrite` on a non-empty bag. -/
theorem handleWrite_ok (req : Request) (data : FieldData) (h : req.Data ≠ []) :
    ∃ buf, Json.Marshal req.Data = .ok buf ∧ Json.Unmarshal buf = .ok req.Data ∧
      handleWrite req data
        = (.ok none, ⟨req.Path, buf⟩ :: req.Storage.filter fun e => e.Key ≠ req.Path) := by
  obtain ⟨buf, hm, hu⟩ := Json.Unmarshal_Marshal req.Data
  refine ⟨buf, hm, hu, ?_⟩
  have hlen : ¬ req.Data.length = 0 := fun h0 => h (List.length_eq_zero.1 h0)
  simp only [handleWrite, hlen, if_false, hm, Storage.Put]

/-- The outcome of `handleRawRead` once the record is read. -/
theorem handleRawReadResult_ok (k : String) (body : Bag) (st : Storage) (data : FieldData)
    (out : StorageEntry) (rawData : Bag) (hget : st.Get k = .ok (some out))
    (hdec : Json.Unmarshal out.Value = .ok rawData) :
    handleRawReadResult ⟨.ReadOperation, "raw/" ++ k, body, st⟩ data
      = .ok (some { Data := [("secret_access_key", rawData.index "secret_access_key")] }) := by
  simp only [handleRawReadResult, Strings.Replace_raw, hget, hdec]

/-- A raw read of an absent record returns the empty result. -/
theorem handleRawReadResult_absent (k : String) (body : Bag) (st : Storage) (data : FieldData)
    (hget : st.Get k = .ok none) :
    handleRawReadResult ⟨.ReadOperation, "raw/" ++ k, body, st⟩ data = .ok none := by
  simp only [handleRawReadResult, Strings.Replace_raw, hget]

end Awssignature

namespace Sha256

theorem digest_length (s : State) : (digest s).length = 32 := by
  simp [digest, be32]

theorem digest_bytes (s : State) : (digest s).all (fun b => decide (b < 256)) = true := by
  simp only [digest, be32, List.flatMap_cons, List.flatMap_nil, List.cons_append, List.nil_append,
    List.all_cons, List.all_nil, Bool.and_true, Bool.and_eq_true, decide_eq_true_eq]
  refine ⟨?_, ?_, ?_, ?_, ?_, ?_, ?_, ?_, ?_, ?_, ?_, ?_, ?_, ?_, ?_, ?_, ?_, ?_, ?_, ?_, ?_, ?_,
    ?_, ?_, ?_, ?_, ?_, ?_, ?_, ?_, ?_, ?_⟩ <;> exact Nat.mod_lt _ (by norm_num)

theorem Sum256_length (msg : Bytes) : (Sum256 msg).length = 32 :=
  digest_length _

theorem Sum256_bytes (msg : Bytes) : (Sum256 msg).all (fun b => decide (b < 256)) = true :=
  digest_bytes _

end Sha256

namespace Base64

theorem enc_mem (n : Nat) : enc n ∈ encodeStd := by
  unfold enc
  by_cases h : n < encodeStd.length
  · rw [List.getD_eq_getElem _ _ h]
    exact List.getElem_mem h
  · rw [List.getD_eq_default _ _ (by omega)]
    decide

theorem enc_contains (n : Nat) : encodeStd.contains (enc n) = true := by
  simp only [List.contains_iff_exists_mem_beq, beq_iff_eq, exists_eq_right']
  exact enc_mem n

/-- The characters allowed in padded output. -/
theorem encode_chars : ∀ l : Bytes,
    (encode l).all (fun c => encodeStd.contains c || c = '=') = true
  | [] => rfl
  | [a] => by simp [encode, enc_mem]
  | [a, b] => by simp [encode, enc_mem]
  | a :: b :: c :: rest => by
    have ih := encode_chars rest
    simp only [encode, List.all_cons, enc_contains, Bool.true_or, Bool.true_and, ih]

theorem encode_length : ∀ l : Bytes, (encode l).length = 4 * ((l.length + 2) / 3)
  | [] => rfl
  | [a] => by simp [encode]
  | [a, b] => by simp [encode]
  | a :: b :: c :: rest => by
    have ih := encode_length rest
    simp only [encode, List.length_cons, ih]
    omega

/-- An input of 2 modulo 3 bytes is padded with exactly one `=`. -/
theorem encode_last : ∀ l : Bytes, l.length % 3 = 2 →
    (encode l).getLast? = some '=' ∧ (encode l).dropLast.all (fun c => encodeStd.contains c) = true
  | [], h => by simp at h
  | [a], h => by simp at h
  | [a, b], _ => by simp [encode, enc_mem]
  | a :: b :: c :: rest, h => by
    have hr : rest.length % 3 = 2 := by
      simp only [List.length_cons] at h
      omega
    have ih := encode_last rest hr
    have hne : encode rest ≠ [] := by
      intro h0
      have := encode_length rest
      rw [h0] at this
      simp only [List.length_nil] at this
      omega
    obtain ⟨x, xs, hx⟩ := List.exists_cons_of_ne_nil hne
    rw [encode, hx]
    rw [hx] at ih
    simp only [List.getLast?_cons_cons, List.dropLast_cons₂, List.all_cons, enc_contains,
      Bool.true_and]
    exact ih

end Base64

namespace Hmac

theorem Sum_length (key data : Bytes) : (Sum key data).length = 32 :=
  Sha256.Sum256_length _

theorem Sum_bytes (key data : Bytes) : (Sum key data).all (fun b => decide (b < 256)) = true :=
  Sha256.Sum256_bytes _

end Hmac

/-! ## Segments, frames and traces -/

namespace Strings

theorem splitChars_ne_nil (sep : Char) (cs : List Char) : splitChars sep cs ≠ [] := by
  cases cs with
  | nil => simp [splitChars]
  | cons c cs =>
    rw [splitChars]
    split_ifs
    · simp
    · split <;> simp

/-- A text without the separator is one piece. -/
theorem splitChars_of_not_mem (sep : Char) :
    ∀ w : List Char, sep ∉ w → splitChars sep w = [w]
  | [], _ => rfl
  | c :: w, h => by
    have hc : ¬ c = sep := fun e => h (e ▸ List.mem_cons_self _ _)
    have ih := splitChars_of_not_mem sep w (fun hm => h (List.mem_cons_of_mem _ hm))
    rw [splitChars, if_neg hc, ih]

/-- The first piece of a text ends at the first separator. -/
theorem splitChars_append (sep : Char) (rest : List Char) :
    ∀ w : List Char, sep ∉ w → splitChars sep (w ++ sep :: rest) = w :: splitChars sep rest
  | [], _ => by simp [splitChars]
  | c :: w, h => by
    have hc : ¬ c = sep := fun e => h (e ▸ List.mem_cons_self _ _)
    have ih := splitChars_append sep rest w (fun hm => h (List.mem_cons_of_mem _ hm))
    rw [List.cons_append, splitChars, if_neg hc, ih]

end Strings

namespace Awssignature

open Logical Framework

/-- The segments of a path that matches one of the three patterns: their
number is 1, 4 or 2, and each is a generic name or the literal `raw`. -/
theorem matches_segments {nameRe : List Char → Bool} (hn : NoSlash nameRe) {p : Path}
    (hp : p ∈ Awssignature.Backend.Paths) {path : List Char} {caps : Captures}
    (h : Matches nameRe p.Pattern path caps) :
    (∀ s, s ∈ Strings.splitChars '/' path → nameRe s = true ∨ s = ['r', 'a', 'w']) ∧
    ((Strings.splitChars '/' path).length = 1 ∨ (Strings.splitChars '/' path).length = 2 ∨
      (Strings.splitChars '/' path).length = 4) := by
  simp only [Awssignature.Backend, List.mem_cons, List.mem_singleton, List.not_mem_nil,
    or_false] at hp
  rcases hp with rfl | rfl | rfl
  · obtain ⟨k, r1, c1, rfl, -, hk, m1⟩ := Matches.name_inv h
    obtain ⟨r2, rfl, m2⟩ := Matches.lit_inv m1
    obtain ⟨d, r3, c3, rfl, -, hd, m3⟩ := Matches.name_inv m2
    obtain ⟨r4, rfl, m4⟩ := Matches.lit_inv m3
    obtain ⟨v, r5, c5, rfl, -, hv, m5⟩ := Matches.name_inv m4
    obtain ⟨r6, rfl, m6⟩ := Matches.lit_inv m5
    obtain ⟨r, r7, c7, rfl, -, hr, m7⟩ := Matches.name_inv m6
    obtain ⟨rfl, -⟩ := Matches.nil_inv m7
    simp only [slash_data, List.singleton_append, List.append_nil]
    rw [Strings.splitChars_append _ _ _ (hn k hk), Strings.splitChars_append _ _ _ (hn d hd),
      Strings.splitChars_append _ _ _ (hn v hv), Strings.splitChars_of_not_mem _ _ (hn r hr)]
    refine ⟨?_, Or.inr (Or.inr rfl)⟩
    intro s hs
    simp only [List.mem_cons, List.mem_singleton, List.not_mem_nil, or_false] at hs
    rcases hs with rfl | rfl | rfl | rfl
    · exact Or.inl hk
    · exact Or.inl hd
    · exact Or.inl hv
    · exact Or.inl hr
  · obtain ⟨k, r1, c1, rfl, -, hk, m1⟩ := Matches.name_inv h
    obtain ⟨rfl, -⟩ := Matches.nil_inv m1
    rw [List.append_nil, Strings.splitChars_of_not_mem _ _ (hn k hk)]
    refine ⟨?_, Or.inl rfl⟩
    intro s hs
    rw [List.mem_singleton] at hs
    exact Or.inl (hs ▸ hk)
  · obtain ⟨r1, rfl, m1⟩ := Matches.lit_inv h
    obtain ⟨k, r2, c2, rfl, -, hk, m2⟩ := Matches.name_inv m1
    obtain ⟨rfl, -⟩ := Matches.nil_inv m2
    rw [List.append_nil, raw_data]
    have e : ['r', 'a', 'w', '/'] ++ k = ['r', 'a', 'w'] ++ '/' :: k := rfl
    rw [e, Strings.splitChars_append _ _ _ (by decide),
      Strings.splitChars_of_not_mem _ _ (hn k hk)]
    refine ⟨?_, Or.inr (Or.inl rfl)⟩
    intro s hs
    simp only [List.mem_cons, List.mem_singleton, List.not_mem_nil, or_false] at hs
    rcases hs with rfl | rfl
    · exact Or.inr rfl
    · exact Or.inl hk

end Awssignature

namespace Framework

/-- The search returns one of the paths searched. -/
theorem route_mem (nameRe : List Char → Bool) (path : String) :
    ∀ (paths : List Path) (p : Path) (caps : Captures),
      route nameRe paths path = some (p, caps) →
      p ∈ paths ∧ Matches nameRe p.Pattern path.data caps
  | [], p, caps, h => by simp [route] at h
  | q :: qs, p, caps, h => by
    rw [route] at h
    cases hm : (matchAll nameRe q.Pattern path.data).head? with
    | some c0 =>
      rw [hm] at h
      simp only [Option.some.injEq, Prod.mk.injEq] at h
      obtain ⟨rfl, rfl⟩ := h
      refine ⟨List.mem_cons_self _ _, (mem_matchAll _ _ _ _).1 ?_⟩
      exact List.mem_of_mem_head? hm
    | none =>
      rw [hm] at h
      have := route_mem nameRe path qs p caps h
      exact ⟨List.mem_cons_of_mem _ this.1, this.2⟩

/-- A path that no pattern matches is not routed. -/
theorem route_none (nameRe : List Char → Bool) (path : String) (paths : List Path)
    (h : ∀ p, p ∈ paths → ∀ caps, ¬ Matches nameRe p.Pattern path.data caps) :
    route nameRe paths path = none := by
  cases hr : route nameRe paths path with
  | none => rfl
  | some pc =>
    obtain ⟨p, caps⟩ := pc
    have := route_mem nameRe path paths p caps hr
    exact absurd this.2 (h p this.1 caps)

/-- A full match is in particular a match of some part of the text. -/
theorem MatchString_of_matches {nameRe : List Char → Bool} {pattern : List Pat} {s : String}
    {caps : Captures} (h : Matches nameRe pattern s.data caps) :
    MatchString nameRe pattern s = true := by
  simp only [MatchString, List.any_eq_true, Bool.not_eq_true', List.isEmpty_eq_false]
  refine ⟨([], s.data), (mem_splits _ _).2 rfl, (s.data, []), (mem_splits _ _).2 (by simp), ?_⟩
  intro h0
  have := (mem_matchAll nameRe pattern s.data caps).2 h
  rw [h0] at this
  exact absurd this (List.not_mem_nil _)

end Framework

namespace Logical

theorem Storage.has_put (st : Storage) (e : StorageEntry) :
    Storage.Has (e :: st.filter fun x => x.Key ≠ e.Key) e.Key = true := by
  simp [Storage.Has]

theorem Storage.has_put_ne (st : Storage) (e : StorageEntry) (key : String) (h : key ≠ e.Key) :
    Storage.Has (e :: st.filter fun x => x.Key ≠ e.Key) key = st.Has key := by
  obtain ⟨st1, h1, h2⟩ := Storage.get_put_ne st e key h
  simp only [Storage.Put, Except.ok.injEq] at h1
  subst h1
  simp only [Storage.Get, Except.ok.injEq] at h2
  simp only [Storage.Has, h2]

theorem Storage.has_delete (st : Storage) (key : String) :
    Storage.Has (st.filter fun x => x.Key ≠ key) key = false := by
  obtain ⟨st1, h1, h2⟩ := Storage.get_delete st key
  simp only [Storage.Delete, Except.ok.injEq] at h1
  subst h1
  simp only [Storage.Get, Except.ok.injEq] at h2
  simp only [Storage.Has, h2, Option.isSome_none]

theorem Storage.has_delete_ne (st : Storage) (key other : String) (h : other ≠ key) :
    Storage.Has (st.filter fun x => x.Key ≠ key) other = st.Has other := by
  obtain ⟨st1, h1, h2⟩ := Storage.get_delete_ne st key other h
  simp only [Storage.Delete, Except.ok.injEq] at h1
  subst h1
  simp only [Storage.Get, Except.ok.injEq] at h2
  simp only [Storage.Has, h2]

theorem Storage.get_of_has_false (st : Storage) (key : String) (h : st.Has key = false) :
    st.Get key = .ok none := by
  unfold Storage.Has at h
  unfold Storage.Get
  cases hf : st.find? fun e => e.Key = key with
  | none => rfl
  | some out => rw [hf] at h; simp at h

theorem Storage.get_of_has (st : Storage) (key : String) (h : st.Has key = true) :
    ∃ out, st.Get key = .ok (some out) := by
  simp only [Storage.Has, Option.isSome_iff_exists] at h
  obtain ⟨out, ho⟩ := h
  exact ⟨out, by simp only [Storage.Get, ho]⟩

end Logical

namespace Awssignature

open Logical Framework

/-- What a request can do to the storage: nothing, or (a WRITE with a
non-empty bag) put an entry under the request path, or (a DELETE) delete the
entry under the request path. -/
theorem HandleRequest_storage (nameRe : List Char → Bool) (req : Request) :
    (HandleRequest nameRe Awssignature.Backend req).2 = req.Storage ∨
    (req.Operation = .WriteOperation ∧ req.Data ≠ [] ∧
      ∃ buf, (HandleRequest nameRe Awssignature.Backend req).2
        = ⟨req.Path, buf⟩ :: req.Storage.filter fun e => e.Key ≠ req.Path) ∨
    (req.Operation = .DeleteOperation ∧
      (HandleRequest nameRe Awssignature.Backend req).2
        = req.Storage.filter fun e => e.Key ≠ req.Path) := by
  unfold HandleRequest
  cases hr : route nameRe Awssignature.Backend.Paths req.Path with
  | none => exact Or.inl rfl
  | some pc =>
    obtain ⟨p, caps⟩ := pc
    have hp := (route_mem nameRe req.Path _ p caps hr).1
    simp only [Awssignature.Backend, List.mem_cons, List.mem_singleton, List.not_mem_nil,
      or_false] at hp
    obtain ⟨op, path, body, st⟩ := req
    rcases hp with rfl | rfl | rfl
    · cases op <;> exact Or.inl rfl
    · cases op
      · exact Or.inl rfl
      · by_cases hb : body = []
        · subst hb
          exact Or.inl rfl
        · obtain ⟨buf, _, _, hw⟩ := handleWrite_ok ⟨.WriteOperation, path, body, st⟩
            { Raw := caps.map fun kv => (kv.1, Value.str kv.2),
              Schema := pathWriteStandardKey.Fields } hb
          refine Or.inr (Or.inl ⟨rfl, hb, buf, ?_⟩)
          show (handleWrite _ _).2 = _
          rw [hw]
      · exact Or.inr (Or.inr ⟨rfl, rfl⟩)
    · cases op <;> exact Or.inl rfl

/-- A READ request leaves the storage as it is. -/
theorem HandleRequest_read_storage (nameRe : List Char → Bool) (path : String) (body : Bag)
    (st : Storage) :
    (HandleRequest nameRe Awssignature.Backend ⟨.ReadOperation, path, body, st⟩).2 = st := by
  rcases HandleRequest_storage nameRe ⟨.ReadOperation, path, body, st⟩ with h | h | h
  · exact h
  · exact absurd h.1 (fun e => by cases e)
  · exact absurd h.1 (fun e => by cases e)

/-- A request does not change the entries under keys other than its path. -/
theorem HandleRequest_frame (nameRe : List Char → Bool) (req : Request) (other : String)
    (hne : other ≠ req.Path) :
    (HandleRequest nameRe Awssignature.Backend req).2.Get other = req.Storage.Get other ∧
    (HandleRequest nameRe Awssignature.Backend req).2.Has other = req.Storage.Has other := by
  rcases HandleRequest_storage nameRe req with h | ⟨_, _, buf, h⟩ | ⟨_, h⟩
  · rw [h]
    exact ⟨rfl, rfl⟩
  · rw [h]
    obtain ⟨st1, h1, h2⟩ := Storage.get_put_ne req.Storage ⟨req.Path, buf⟩ other hne
    simp only [Storage.Put, Except.ok.injEq] at h1
    subst h1
    exact ⟨h2, Storage.has_put_ne req.Storage ⟨req.Path, buf⟩ other hne⟩
  · rw [h]
    obtain ⟨st1, h1, h2⟩ := Storage.get_delete_ne req.Storage req.Path other hne
    simp only [Storage.Delete, Except.ok.injEq] at h1
    subst h1
    exact ⟨h2, Storage.has_delete_ne req.Storage req.Path other hne⟩

/-- A read of a present record does not return the empty result. -/
theorem handleReadResult_present (req : Request) (data : FieldData) (k : String)
    (out : StorageEntry) (h1 : data.Raw.index "key_id" = .str k)
    (hget : req.Storage.Get k = .ok (some out)) : handleReadResult req data ≠ .ok none := by
  intro h
  simp only [handleReadResult, h1, assertString, bind, Except.bind, hget] at h
  repeat' (split at h <;> try (simp at h))

/-- A raw read of a present record does not return the empty result. -/
theorem handleRawReadResult_present (k : String) (body : Bag) (st : Storage) (data : FieldData)
    (out : StorageEntry) (hget : st.Get k = .ok (some out)) :
    handleRawReadResult ⟨.ReadOperation, "raw/" ++ k, body, st⟩ data ≠ .ok none := by
  simp only [handleRawReadResult, Strings.Replace_raw, hget]
  cases Json.Unmarshal out.Value with
  | error e => simp
  | ok rawData => simp

/-- A successful derive-read returns the single field `signature`. -/
theorem handleReadResult_payload (req : Request) (data : FieldData) (resp : Response)
    (h : handleReadResult req data = .ok (some resp)) :
    ∃ sig, resp.Data = [("signature", .str sig)] := by
  simp only [handleReadResult, bind, Except.bind] at h
  repeat' (split at h <;> try (simp at h))
  exact ⟨_, by rw [← h]⟩

/-- A successful raw read returns the single field `secret_access_key`. -/
theorem handleRawReadResult_payload (req : Request) (data : FieldData) (resp : Response)
    (h : handleRawReadResult req data = .ok (some resp)) :
    ∃ v, resp.Data = [("secret_access_key", v)] := by
  simp only [handleRawReadResult] at h
  cases h1 : req.Storage.Get (Strings.Replace req.Path "raw/" "" 1) with
  | error e => rw [h1] at h; simp at h
  | ok o =>
    rw [h1] at h
    cases o with
    | none => simp at h
    | some out =>
      simp only at h
      cases h2 : Json.Unmarshal out.Value with
      | error e => rw [h2] at h; simp at h
      | ok rawData =>
        rw [h2] at h
        simp only [Except.ok.injEq, Option.some.injEq] at h
        exact ⟨_, by rw [← h]⟩

/-- A write returns no payload. -/
theorem handleWrite_payload (req : Request) (data : FieldData) (resp : Option Response)
    (h : (handleWrite req data).1 = .ok resp) : resp = none := by
  by_cases hb : req.Data = []
  · simp [handleWrite, hb] at h
  · obtain ⟨buf, _, _, hw⟩ := handleWrite_ok req data hb
    rw [hw] at h
    simp only [Except.ok.injEq] at h
    exact h.symm

/-- A delete returns no payload. -/
theorem handleDelete_payload (req : Request) (data : FieldData) (resp : Option Response)
    (h : (handleDelete req data).1 = .ok resp) : resp = none := by
  simp only [handleDelete, Storage.Delete, Except.ok.injEq] at h
  exact h.symm

/-- A WRITE or DELETE request, whatever its path, returns no payload. -/
theorem HandleRequest_no_payload (nameRe : List Char → Bool) (req : Request)
    (hop : req.Operation ≠ .ReadOperation) (resp : Option Response)
    (h : (HandleRequest nameRe Awssignature.Backend req).1 = .ok resp) : resp = none := by
  unfold HandleRequest at h
  cases hr : route nameRe Awssignature.Backend.Paths req.Path with
  | none => rw [hr] at h; simp at h
  | some pc =>
    obtain ⟨p, caps⟩ := pc
    rw [hr] at h
    have hp := (route_mem nameRe req.Path _ p caps hr).1
    simp only [Awssignature.Backend, List.mem_cons, List.mem_singleton, List.not_mem_nil,
      or_false] at hp
    obtain ⟨op, path, body, st⟩ := req
    rcases hp with rfl | rfl | rfl
    · cases op
      · exact absurd rfl hop
      · have h1 : (Except.error (Fault.error "unsupported operation") : Result) = .ok resp := h
        cases h1
      · have h1 : (Except.error (Fault.error "unsupported operation") : Result) = .ok resp := h
        cases h1
    · cases op
      · exact absurd rfl hop
      · exact handleWrite_payload _ _ resp h
      · exact handleDelete_payload _ _ resp h
    · cases op
      · exact absurd rfl hop
      · have h1 : (Except.error (Fault.error "unsupported operation") : Result) = .ok resp := h
        cases h1
      · have h1 : (Except.error (Fault.error "unsupported operation") : Result) = .ok resp := h
        cases h1

/-- The derive-read of `k/d/v/r` on a record whose secret is the string `s`. -/
theorem HandleRequest_derive {nameRe : List Char → Bool} (hn : NoSlash nameRe)
    {k d v r : String} (hk : nameRe k.data = true) (hd : nameRe d.data = true)
    (hv : nameRe v.data = true) (hr : nameRe r.data = true) (body : Bag) (st : Storage)
    (s : String) (out : StorageEntry) (rawData : Bag) (hget : st.Get k = .ok (some out))
    (hdec : Json.Unmarshal out.Value = .ok rawData)
    (hkey : rawData.get? "secret_access_key" = some (.str s)) :
    HandleRequest nameRe Awssignature.Backend
        ⟨.ReadOperation, k ++ "/" ++ d ++ "/" ++ v ++ "/" ++ r, body, st⟩
      = (.ok (some { Data := [("signature",
          .str (Base64.EncodeToString (buildSignature s d r v)))] }), st) := by
  rw [HandleRequest_standard hn hk hd hv hr]
  obtain ⟨h1, h2, h3, h4⟩ := fields_standard k d v r Fields
  simp only [handleRead]
  rw [handleReadResult_ok _ _ k d v r s out rawData h1 h2 h3 h4 hget hdec hkey]

/-- Each of the three reads of `k` returns the empty result exactly when the
storage holds no entry under `k`. -/
theorem reads_empty_iff {nameRe : List Char → Bool} (hn : NoSlash nameRe)
    {k d v r : String} (hk : nameRe k.data = true) (hd : nameRe d.data = true)
    (hv : nameRe v.data = true) (hr : nameRe r.data = true) (body : Bag) (st : Storage) :
    ((HandleRequest nameRe Awssignature.Backend ⟨.ReadOperation, k, body, st⟩).1 = .ok none
      ↔ st.Has k = false) ∧
    ((HandleRequest nameRe Awssignature.Backend
        ⟨.ReadOperation, k ++ "/" ++ d ++ "/" ++ v ++ "/" ++ r, body, st⟩).1 = .ok none
      ↔ st.Has k = false) ∧
    ((HandleRequest nameRe Awssignature.Backend ⟨.ReadOperation, "raw/" ++ k, body, st⟩).1
        = .ok none ↔ st.Has k = false) := by
  rw [HandleRequest_key_read hn hk, HandleRequest_standard hn hk hd hv hr,
    HandleRequest_raw hn hk]
  simp only [handleRead, handleRawRead]
  cases hh : st.Has k with
  | false =>
    have hget := Storage.get_of_has_false st k hh
    rw [handleReadResult_absent _ _ k (fields_key k Fields).1 hget,
      handleReadResult_absent _ _ k (fields_standard k d v r Fields).1 hget,
      handleRawReadResult_absent k body st _ hget]
    simp
  | true =>
    obtain ⟨out, hget⟩ := Storage.get_of_has st k hh
    have h1 := handleReadResult_present ⟨.ReadOperation, k, body, st⟩
      { Raw := [("key_id", .str k)], Schema := Fields } k out (fields_key k Fields).1 hget
    have h2 := handleReadResult_present
      ⟨.ReadOperation, k ++ "/" ++ d ++ "/" ++ v ++ "/" ++ r, body, st⟩
      { Raw := [("key_id", .str k), ("date", .str d), ("service_name", .str v),
          ("region_name", .str r)], Schema := Fields } k out
      (fields_standard k d v r Fields).1 hget
    have h3 := handleRawReadResult_present k body st
      { Raw := [("key_id", .str k)], Schema := Fields } out hget
    simp [h1, h2, h3]

/-- The effect of one request on the presence of a record under `k`. -/
theorem has_step {nameRe : List Char → Bool} (hn : NoSlash nameRe) {k : String}
    (hk : nameRe k.data = true) (st : Storage) (req : Request) :
    (HandleRequest nameRe Awssignature.Backend { req with Storage := st }).2.Has k
      = (if req.Path = k then
          match req.Operation with
          | .WriteOperation => if req.Data.length = 0 then st.Has k else true
          | .DeleteOperation => false
          | .ReadOperation => st.Has k
        else st.Has k) := by
  obtain ⟨op, path, body, st0⟩ := req
  by_cases hp : path = k
  · subst hp
    simp only [if_true]
    cases op
    · simp only [HandleRequest_read_storage]
    · rw [HandleRequest_key_write hn hk]
      by_cases hb : body = []
      · subst hb
        rfl
      · obtain ⟨buf, _, _, hw⟩ := handleWrite_ok ⟨.WriteOperation, path, body, st⟩
          { Raw := [("key_id", .str path)], Schema := Fields } hb
        have hlen : ¬ body.length = 0 := fun h0 => hb (List.length_eq_zero.1 h0)
        rw [hw]
        simp only [hlen, if_false]
        exact Storage.has_put st ⟨path, buf⟩
    · rw [HandleRequest_key_delete hn hk]
      exact Storage.has_delete st path
  · simp only [hp, if_false]
    exact (HandleRequest_frame nameRe ⟨op, path, body, st⟩ k (fun e => hp e.symm)).2

/-- After a sequence of requests a record is present under `k` exactly when
the last successful WRITE or DELETE addressed to `k` was a WRITE. -/
theorem serve_has {nameRe : List Char → Bool} (hn : NoSlash nameRe) {k : String}
    (hk : nameRe k.data = true) :
    ∀ (reqs : List Request) (st : Storage),
      (serve nameRe st reqs).Has k = lastWrite k (st.Has k) reqs
  | [], _ => rfl
  | req :: rest, st => by
    rw [serve, lastWrite, serve_has hn hk rest, has_step hn hk]

end Awssignature

/-! ## Base64 decoding and the `pgpkeys` helper -/

namespace Base64

theorem decodeMap_enc (n : Nat) : ∃ m, decodeMap (enc n) = some m := by
  unfold decodeMap
  rw [if_pos (enc_contains n)]
  exact ⟨_, rfl⟩

theorem pad_not_mem : '=' ∉ encodeStd := by decide

theorem enc_ne_pad (n : Nat) : enc n ≠ '=' := by
  intro h
  have := enc_mem n
  rw [h] at this
  exact pad_not_mem this

theorem not_newline_of_mem : ∀ c, c ∈ encodeStd → isNewline c = false := by decide

theorem not_newline_of_char (c : Char) (h : (encodeStd.contains c || decide (c = '=')) = true) :
    isNewline c = false := by
  simp only [Bool.or_eq_true, decide_eq_true_eq] at h
  rcases h with h | h
  · apply not_newline_of_mem
    simpa using h
  · subst h
    decide

/-- The encoder's output holds no new-line characters. -/
theorem filter_encode (bs : Bytes) :
    (encode bs).filter (fun c => !isNewline c) = encode bs := by
  rw [List.filter_eq_self]
  intro c hc
  have hall := encode_chars bs
  rw [List.all_eq_true] at hall
  rw [not_newline_of_char c (hall c hc)]
  rfl

/-- The quanta that the encoder writes decode without error. -/
theorem decodeQuanta_encode : ∀ bs : Bytes, ∃ out, decodeQuanta (encode bs) = .ok out
  | [] => ⟨[], rfl⟩
  | [a] => by
    obtain ⟨x, hx⟩ := decodeMap_enc (a / 4)
    obtain ⟨y, hy⟩ := decodeMap_enc (a % 4 * 16)
    simp only [encode, decodeQuanta, hx, hy, if_true, and_self]
    exact ⟨_, rfl⟩
  | [a, b] => by
    obtain ⟨x, hx⟩ := decodeMap_enc (a / 4)
    obtain ⟨y, hy⟩ := decodeMap_enc (a % 4 * 16 + b / 16)
    obtain ⟨z, hz⟩ := decodeMap_enc (b % 16 * 4)
    simp only [encode, decodeQuanta, hx, hy, hz, enc_ne_pad, if_false, if_true]
    exact ⟨_, rfl⟩
  | a :: b :: c :: rest => by
    obtain ⟨x, hx⟩ := decodeMap_enc (a / 4)
    obtain ⟨y, hy⟩ := decodeMap_enc (a % 4 * 16 + b / 16)
    obtain ⟨z, hz⟩ := decodeMap_enc (b % 16 * 4 + c / 64)
    obtain ⟨w, hw⟩ := decodeMap_enc (c % 64)
    obtain ⟨out, ho⟩ := decodeQuanta_encode rest
    simp only [encode, decodeQuanta, hx, hy, hz, hw, enc_ne_pad, if_false, ho]
    exact ⟨_, rfl⟩

/-- What the encoder returns decodes as standard base64. -/
theorem DecodeString_EncodeToString (bs : Bytes) :
    ∃ out, DecodeString (EncodeToString bs) = .ok out := by
  unfold DecodeString EncodeToString
  simp only [filter_encode]
  exact decodeQuanta_encode bs

theorem decodeMap_enc_eq : ∀ n, n < 64 → decodeMap (enc n) = some n := by decide

/-- Decoding inverts encoding on bytes. -/
theorem decodeQuanta_encode_eq : ∀ bs : Bytes, (∀ b, b ∈ bs → b < 256) →
    decodeQuanta (encode bs) = .ok bs
  | [], _ => rfl
  | [a], h => by
    have ha : a < 256 := h a (by simp)
    have hx := decodeMap_enc_eq (a / 4) (by omega)
    have hy := decodeMap_enc_eq (a % 4 * 16) (by omega)
    simp only [encode, decodeQuanta, hx, hy, if_true, and_self]
    congr 2
    omega
  | [a, b], h => by
    have ha : a < 256 := h a (by simp)
    have hb : b < 256 := h b (by simp)
    have hx := decodeMap_enc_eq (a / 4) (by omega)
    have hy := decodeMap_enc_eq (a % 4 * 16 + b / 16) (by omega)
    have hz := decodeMap_enc_eq (b % 16 * 4) (by omega)
    simp only [encode, decodeQuanta, hx, hy, hz, enc_ne_pad, if_false, if_true]
    have e1 : a / 4 * 4 + (a % 4 * 16 + b / 16) / 16 = a := by omega
    have e2 : (a % 4 * 16 + b / 16) % 16 * 16 + b % 16 * 4 / 4 = b := by omega
    rw [e1, e2]
  | a :: b :: c :: rest, h => by
    have ha : a < 256 := h a (by simp)
    have hb : b < 256 := h b (by simp)
    have hc : c < 256 := h c (by simp)
    have hx := decodeMap_enc_eq (a / 4) (by omega)
    have hy := decodeMap_enc_eq (a % 4 * 16 + b / 16) (by omega)
    have hz := decodeMap_enc_eq (b % 16 * 4 + c / 64) (by omega)
    have hw := decodeMap_enc_eq (c % 64) (by omega)
    have ih := decodeQuanta_encode_eq rest (fun x hx => h x (by simp [hx]))
    simp only [encode, decodeQuanta, hx, hy, hz, hw, enc_ne_pad, if_false, ih]
    have e1 : a / 4 * 4 + (a % 4 * 16 + b / 16) / 16 = a := by omega
    have e2 : (a % 4 * 16 + b / 16) % 16 * 16 + (b % 16 * 4 + c / 64) / 4 = b := by omega
    have e3 : (b % 16 * 4 + c / 64) % 4 * 64 + c % 64 = c := by omega
    rw [e1, e2, e3]

/-- The method `DecodeString` inverts `EncodeToString` on bytes. -/
theorem DecodeString_EncodeToString_eq (bs : Bytes) (h : ∀ b, b ∈ bs → b < 256) :
    DecodeString (EncodeToString bs) = .ok bs := by
  unfold DecodeString EncodeToString
  simp only [filter_encode]
  exact decodeQuanta_encode_eq bs h

theorem mem_of_decodeMap {c : Char} {n : Nat} (h : decodeMap c = some n) : c ∈ encodeStd := by
  unfold decodeMap at h
  split_ifs at h with hc
  simpa using hc

/-- Decodable quanta hold characters of the alphabet and padding only. -/
theorem chars_of_decodeQuanta : ∀ (cs : List Char) (out : Bytes), decodeQuanta cs = .ok out →
    ∀ c, c ∈ cs → c ∈ encodeStd ∨ c = '='
  | [], _, _ => by simp
  | [_], _, h => by simp [decodeQuanta] at h
  | [_, _], _, h => by simp [decodeQuanta] at h
  | [_, _, _], _, h => by simp [decodeQuanta] at h
  | a :: b :: c :: d :: rest, out, h => by
    rw [decodeQuanta] at h
    cases ha : decodeMap a with
    | none => rw [ha] at h; simp at h
    | some x =>
      cases hb : decodeMap b with
      | none => rw [ha, hb] at h; simp at h
      | some y =>
        rw [ha, hb] at h
        simp only at h
        have ma := mem_of_decodeMap ha
        have mb := mem_of_decodeMap hb
        by_cases hc : c = '='
        · rw [if_pos hc] at h
          by_cases hd : d = '=' ∧ rest = []
          · obtain ⟨hd1, hd2⟩ := hd
            subst hc hd1 hd2
            intro ch hch
            simp only [List.mem_cons, List.mem_singleton, List.not_mem_nil, or_false] at hch
            rcases hch with rfl | rfl | rfl | rfl
            · exact Or.inl ma
            · exact Or.inl mb
            · exact Or.inr rfl
            · exact Or.inr rfl
          · rw [if_neg hd] at h
            simp at h
        · rw [if_neg hc] at h
          cases hcm : decodeMap c with
          | none => rw [hcm] at h; simp at h
          | some z =>
            rw [hcm] at h
            simp only at h
            have mc := mem_of_decodeMap hcm
            by_cases hd : d = '='
            · rw [if_pos hd] at h
              by_cases hr : rest = []
              · subst hd hr
                intro ch hch
                simp only [List.mem_cons, List.mem_singleton, List.not_mem_nil, or_false] at hch
                rcases hch with rfl | rfl | rfl | rfl
                · exact Or.inl ma
                · exact Or.inl mb
                · exact Or.inl mc
                · exact Or.inr rfl
              · rw [if_neg hr] at h
                simp at h
            · rw [if_neg hd] at h
              cases hdm : decodeMap d with
              | none => rw [hdm] at h; simp at h
              | some w =>
                rw [hdm] at h
                simp only at h
                have md := mem_of_decodeMap hdm
                cases hrec : decodeQuanta rest with
                | error e => rw [hrec] at h; simp at h
                | ok bs =>
                  have ih := chars_of_decodeQuanta rest bs hrec
                  intro ch hch
                  simp only [List.mem_cons] at hch
                  rcases hch with rfl | rfl | rfl | rfl | hch
                  · exact Or.inl ma
                  · exact Or.inl mb
                  · exact Or.inl mc
                  · exact Or.inl md
                  · exact ih ch hch

/-- A text that decodes holds only characters of the alphabet, padding and
new-line characters. -/
theorem chars_of_DecodeString (s : String) (out : Bytes) (h : DecodeString s = .ok out) :
    ∀ c, c ∈ s.data → c ∈ encodeStd ++ ['=', '\n', '\r'] := by
  intro c hc
  unfold DecodeString at h
  by_cases hn : isNewline c = true
  · simp only [isNewline, Bool.or_eq_true, decide_eq_true_eq] at hn
    rcases hn with rfl | rfl <;> simp
  · have hm : c ∈ s.data.filter fun c => !isNewline c := by
      rw [List.mem_filter]
      exact ⟨hc, by simpa using hn⟩
    rcases chars_of_decodeQuanta _ out h c hm with h1 | h1
    · exact List.mem_append_left _ h1
    · subst h1
      simp

end Base64

namespace Pgpkeys

open Logical

/-- The characters of base64 text are single bytes in UTF-8. -/
theorem utf8_of_base64_char : ∀ c, c ∈ Base64.encodeStd ++ ['=', '\n', '\r'] →
    (String.utf8EncodeChar c).map UInt8.toNat = [c.toNat] := by
  decide

/-- Base64 text written to a file and read back into a buffer is the same text. -/
theorem bufString_stringBytes (s : String)
    (h : ∀ c, c ∈ s.data → c ∈ Base64.encodeStd ++ ['=', '\n', '\r']) :
    bufString (stringBytes s) = s := by
  have key : ∀ l : List Char, (∀ c, c ∈ l → c ∈ Base64.encodeStd ++ ['=', '\n', '\r']) →
      ((l.flatMap String.utf8EncodeChar).map UInt8.toNat).map Char.ofNat = l := by
    intro l
    induction l with
    | nil => intro _; rfl
    | cons c l ih =>
      intro hl
      have hc := utf8_of_base64_char c (hl c (List.mem_cons_self _ _))
      have ih1 := ih (fun x hx => hl x (List.mem_cons_of_mem _ hx))
      rw [List.flatMap_cons, List.map_append, List.map_append, hc, ih1]
      simp [Char.ofNat_toNat]
  unfold bufString stringBytes
  rw [key s.data h]

/-- The characters of encoder output. -/
theorem chars_of_EncodeToString (bs : Bytes) :
    ∀ c, c ∈ (Base64.EncodeToString bs).data → c ∈ Base64.encodeStd ++ ['=', '\n', '\r'] := by
  intro c hc
  have hall := Base64.encode_chars bs
  rw [List.all_eq_true] at hall
  have := hall c hc
  simp only [Bool.or_eq_true, decide_eq_true_eq, List.contains_iff_exists_mem_beq, beq_iff_eq,
    exists_eq_right'] at this
  rcases this with h | h
  · exact List.mem_append_left _ h
  · subst h
    simp

/-- The outcome of `ReadPGPFile` on a non-empty path whose file is readable. -/
theorem ReadPGPFile_readable (fs : FileSystem) (path : String) (c0 : Char) (cs : List Char)
    (buf : Bytes) (hpath : path.data = c0 :: cs)
    (hopen : fs (if c0 = '@' then ⟨cs⟩ else path) = .ok (.ok buf)) :
    ReadPGPFile fs path
      = (match Base64.DecodeString (bufString buf) with
          | .ok _ => .ok (bufString buf)
          | .error _ => .ok (Base64.EncodeToString buf)) := by
  unfold ReadPGPFile
  rw [hpath]
  simp only [hopen]

end Pgpkeys

/-! ## The claims -/

namespace Awssignature

open Logical Framework

/-- C1. Known vector: the signing key derived from secret `foobar`, date
`20150831`, region `us-east-1` and service `ec2`, encoded in standard padded
base64, is the string `Gh6tU3ZoSzIhP6s6jAAL55L8PgB6VVt8pK+W8WYFGl0=`. -/
theorem buildSignature_known_vector :
    Base64.EncodeToString (buildSignature "foobar" "20150831" "us-east-1" "ec2")
      = "Gh6tU3ZoSzIhP6s6jAAL55L8PgB6VVt8pK+W8WYFGl0=" := by
  decide!

/-- C2. Derive-read: when key `k` holds a record whose `secret_access_key` is
the string `s`, the READ of `k/d/v/r` succeeds, leaves the storage as it is and
returns exactly the field `signature`, the base64 of the HMAC-SHA256 chain
keyed by `AWS4 ++ s` over the date `d` (2nd segment), then the region `r` (4th
segment), then the service `v` (3rd segment), then `aws4_request`. -/
theorem derive_read (nameRe : List Char → Bool) (hn : NoSlash nameRe) (st : Storage)
    (k d v r s : String) (body : Bag) (out : StorageEntry) (rawData : Bag)
    (hk : nameRe k.data = true) (hd : nameRe d.data = true) (hv : nameRe v.data = true)
    (hr : nameRe r.data = true) (hget : st.Get k = .ok (some out))
    (hdec : Json.Unmarshal out.Value = .ok rawData)
    (hkey : rawData.get? "secret_access_key" = some (.str s)) :
    HandleRequest nameRe Awssignature.Backend
        ⟨.ReadOperation, k ++ "/" ++ d ++ "/" ++ v ++ "/" ++ r, body, st⟩
      = (.ok (some { Data := [("signature", .str (Base64.EncodeToString
          (Hmac.Sum (Hmac.Sum (Hmac.Sum (Hmac.Sum (stringBytes ("AWS4" ++ s)) (stringBytes d))
            (stringBytes r)) (stringBytes v)) (stringBytes "aws4_request"))))] }), st) := by
  rw [HandleRequest_standard hn hk hd hv hr]
  obtain ⟨h1, h2, h3, h4⟩ := fields_standard k d v r Fields
  simp only [handleRead]
  rw [handleReadResult_ok _ _ k d v r s out rawData h1 h2 h3 h4 hget hdec hkey]
  rfl

/-- An instance of C2: the record and the path of the acceptance test. -/
theorem derive_read_witness :
    HandleRequest genericName Awssignature.Backend
        ⟨.ReadOperation, "key_name" ++ "/" ++ "20150831" ++ "/" ++ "ec2" ++ "/" ++ "us-east-1", [],
          [⟨"key_name", "\x7b\"secret_access_key\":\"foobar\"\x7d"⟩]⟩
      = (.ok (some { Data := [("signature", .str (Base64.EncodeToString
          (Hmac.Sum (Hmac.Sum (Hmac.Sum (Hmac.Sum (stringBytes ("AWS4" ++ "foobar"))
            (stringBytes "20150831")) (stringBytes "us-east-1")) (stringBytes "ec2"))
            (stringBytes "aws4_request"))))] }),
          [⟨"key_name", "\x7b\"secret_access_key\":\"foobar\"\x7d"⟩]) :=
  derive_read genericName genericName_noSlash _ "key_name" "20150831" "ec2" "us-east-1" "foobar"
    [] ⟨"key_name", "\x7b\"secret_access_key\":\"foobar\"\x7d"⟩
    [("secret_access_key", .str "foobar")]
    (by decide) (by decide) (by decide) (by decide) (by decide) (by decide) (by decide)

/-- C3. Write then raw-read round trip: for every storage state, valid key id
`k` and attribute bag `a` whose `secret_access_key` is the string `s`, the WRITE
of `a` at `k` succeeds with no payload, and the READ of `raw/k` on the storage
it leaves returns `secret_access_key = s` unchanged. -/
theorem write_then_raw_read (nameRe : List Char → Bool) (hn : NoSlash nameRe) (st : Storage)
    (k s : String) (a body : Bag) (hk : nameRe k.data = true)
    (hkey : a.get? "secret_access_key" = some (.str s)) :
    ∃ st1, HandleRequest nameRe Awssignature.Backend ⟨.WriteOperation, k, a, st⟩ = (.ok none, st1) ∧
      HandleRequest nameRe Awssignature.Backend ⟨.ReadOperation, "raw/" ++ k, body, st1⟩
        = (.ok (some { Data := [("secret_access_key", .str s)] }), st1) := by
  have hne : a ≠ [] := by
    rintro rfl
    simp [Bag.get?] at hkey
  obtain ⟨buf, _, hu, hw⟩ :=
    handleWrite_ok ⟨.WriteOperation, k, a, st⟩ { Raw := [("key_id", .str k)], Schema := Fields } hne
  refine ⟨⟨k, buf⟩ :: st.filter fun e => e.Key ≠ k, ?_, ?_⟩
  · rw [HandleRequest_key_write hn hk]
    exact hw
  · rw [HandleRequest_raw hn hk]
    simp only [handleRead, handleRawRead]
    rw [handleRawReadResult_ok k body _ _ ⟨k, buf⟩ a (by simp [Storage.Get]) hu]
    simp [Bag.index, hkey]

/-- An instance of C3: the write and the raw read of the acceptance test. -/
theorem write_then_raw_read_witness :
    ∃ st1, HandleRequest genericName Awssignature.Backend
        ⟨.WriteOperation, "key_name", [("secret_access_key", .str "foobar")], []⟩ = (.ok none, st1) ∧
      HandleRequest genericName Awssignature.Backend ⟨.ReadOperation, "raw/" ++ "key_name", [], st1⟩
        = (.ok (some { Data := [("secret_access_key", .str "foobar")] }), st1) :=
  write_then_raw_read genericName genericName_noSlash [] "key_name" "foobar"
    [("secret_access_key", .str "foobar")] [] (by decide) (by decide)

/-- C4. Absence is not failure: when the storage has no entry under `k`, the
READ of `k`, the READ of `k/d/v/r` and the READ of `raw/k` each return the
empty result, no response and no error, and leave the storage as it is. -/
theorem read_absent (nameRe : List Char → Bool) (hn : NoSlash nameRe) (st : Storage)
    (k d v r : String) (body : Bag) (hk : nameRe k.data = true) (hd : nameRe d.data = true)
    (hv : nameRe v.data = true) (hr : nameRe r.data = true) (hget : st.Get k = .ok none) :
    HandleRequest nameRe Awssignature.Backend ⟨.ReadOperation, k, body, st⟩ = (.ok none, st) ∧
    HandleRequest nameRe Awssignature.Backend
        ⟨.ReadOperation, k ++ "/" ++ d ++ "/" ++ v ++ "/" ++ r, body, st⟩ = (.ok none, st) ∧
    HandleRequest nameRe Awssignature.Backend ⟨.ReadOperation, "raw/" ++ k, body, st⟩
      = (.ok none, st) := by
  refine ⟨?_, ?_, ?_⟩
  · rw [HandleRequest_key_read hn hk]
    simp only [handleRead]
    rw [handleReadResult_absent _ _ k (fields_key k Fields).1 hget]
  · rw [HandleRequest_standard hn hk hd hv hr]
    simp only [handleRead]
    rw [handleReadResult_absent _ _ k (fields_standard k d v r Fields).1 hget]
  · rw [HandleRequest_raw hn hk]
    simp only [handleRawRead]
    rw [handleRawReadResult_absent k body st _ hget]

/-- An instance of C4: reads of `key_name` on a storage holding another key only. -/
theorem read_absent_witness :
    HandleRequest genericName Awssignature.Backend
        ⟨.ReadOperation, "key_name", [], [⟨"other", "\x7b\"secret_access_key\":\"foobar\"\x7d"⟩]⟩
      = (.ok none, [⟨"other", "\x7b\"secret_access_key\":\"foobar\"\x7d"⟩]) ∧
    HandleRequest genericName Awssignature.Backend
        ⟨.ReadOperation, "key_name" ++ "/" ++ "20150831" ++ "/" ++ "ec2" ++ "/" ++ "us-east-1", [],
          [⟨"other", "\x7b\"secret_access_key\":\"foobar\"\x7d"⟩]⟩
      = (.ok none, [⟨"other", "\x7b\"secret_access_key\":\"foobar\"\x7d"⟩]) ∧
    HandleRequest genericName Awssignature.Backend
        ⟨.ReadOperation, "raw/" ++ "key_name", [],
          [⟨"other", "\x7b\"secret_access_key\":\"foobar\"\x7d"⟩]⟩
      = (.ok none, [⟨"other", "\x7b\"secret_access_key\":\"foobar\"\x7d"⟩]) :=
  read_absent genericName genericName_noSlash _ "key_name" "20150831" "ec2" "us-east-1" []
    (by decide) (by decide) (by decide) (by decide) (by decide)

/-- C5. Write requires payload: a WRITE whose attribute bag is empty is refused
by `handleWrite` with the error `missing data fields` whatever the request
path, and as a request for a valid key id `k` it returns that error; in both
cases the storage afterwards is the storage before. -/
theorem write_requires_payload (nameRe : List Char → Bool) (hn : NoSlash nameRe) (st : Storage)
    (k : String) (hk : nameRe k.data = true) :
    (∀ (path : String) (data : FieldData),
      handleWrite ⟨.WriteOperation, path, [], st⟩ data
        = (.error (.error "missing data fields"), st)) ∧
    HandleRequest nameRe Awssignature.Backend ⟨.WriteOperation, k, [], st⟩
      = (.error (.error "missing data fields"), st) := by
  refine ⟨fun path data => rfl, ?_⟩
  rw [HandleRequest_key_write hn hk]
  rfl

/-- An instance of C5: an empty write to `key_name` on a storage holding a record. -/
theorem write_requires_payload_witness :
    (∀ (path : String) (data : FieldData),
      handleWrite ⟨.WriteOperation, path, [],
          [⟨"key_name", "\x7b\"secret_access_key\":\"foobar\"\x7d"⟩]⟩ data
        = (.error (.error "missing data fields"),
            [⟨"key_name", "\x7b\"secret_access_key\":\"foobar\"\x7d"⟩])) ∧
    HandleRequest genericName Awssignature.Backend
        ⟨.WriteOperation, "key_name", [],
          [⟨"key_name", "\x7b\"secret_access_key\":\"foobar\"\x7d"⟩]⟩
      = (.error (.error "missing data fields"),
          [⟨"key_name", "\x7b\"secret_access_key\":\"foobar\"\x7d"⟩]) :=
  write_requires_payload genericName genericName_noSlash _ "key_name" (by decide)

/-- C6. Idempotent delete: for every storage state and valid key id `k`, whether
or not a record exists under `k`, DELETE `k` succeeds with no payload; performed
again on the storage it leaves it succeeds again and leaves that same storage. -/
theorem delete_idempotent (nameRe : List Char → Bool) (hn : NoSlash nameRe) (st : Storage)
    (k : String) (body : Bag) (hk : nameRe k.data = true) :
    ∃ st1, HandleRequest nameRe Awssignature.Backend ⟨.DeleteOperation, k, body, st⟩
        = (.ok none, st1) ∧
      HandleRequest nameRe Awssignature.Backend ⟨.DeleteOperation, k, body, st1⟩
        = (.ok none, st1) := by
  refine ⟨st.filter fun e => e.Key ≠ k, ?_, ?_⟩
  · rw [HandleRequest_key_delete hn hk]
    rfl
  · rw [HandleRequest_key_delete hn hk]
    simp only [handleDelete, Storage.Delete, Storage.filter_filter]

/-- An instance of C6: deleting `key_name` twice from the empty storage. -/
theorem delete_idempotent_witness :
    ∃ st1, HandleRequest genericName Awssignature.Backend ⟨.DeleteOperation, "key_name", [], []⟩
        = (.ok none, st1) ∧
      HandleRequest genericName Awssignature.Backend ⟨.DeleteOperation, "key_name", [], st1⟩
        = (.ok none, st1) :=
  delete_idempotent genericName genericName_noSlash [] "key_name" [] (by decide)

/-- C7. On a record without a string `secret_access_key` the derive-read does
not return an error: it panics.  A WRITE of the single field `foo` to
`key_name` on the empty storage succeeds, and the READ of
`key_name/20150831/ec2/us-east-1` that follows panics on the failed type
assertion; likewise after a WRITE of `secret_access_key` bound to the number 5. -/
theorem malformed_record_panics :
    HandleRequest genericName Awssignature.Backend
        ⟨.WriteOperation, "key_name", [("foo", .str "bar")], []⟩
      = (.ok none, [⟨"key_name", "\x7b\"foo\":\"bar\"\x7d"⟩]) ∧
    HandleRequest genericName Awssignature.Backend
        ⟨.ReadOperation, "key_name/20150831/ec2/us-east-1", [],
          [⟨"key_name", "\x7b\"foo\":\"bar\"\x7d"⟩]⟩
      = (.error (.panic "interface conversion: interface \x7b\x7d is nil, not string"),
          [⟨"key_name", "\x7b\"foo\":\"bar\"\x7d"⟩]) ∧
    HandleRequest genericName Awssignature.Backend
        ⟨.WriteOperation, "key_name", [("secret_access_key", .num 5)], []⟩
      = (.ok none, [⟨"key_name", "\x7b\"secret_access_key\":5\x7d"⟩]) ∧
    HandleRequest genericName Awssignature.Backend
        ⟨.ReadOperation, "key_name/20150831/ec2/us-east-1", [],
          [⟨"key_name", "\x7b\"secret_access_key\":5\x7d"⟩]⟩
      = (.error (.panic "interface conversion: interface \x7b\x7d is float64, not string"),
          [⟨"key_name", "\x7b\"secret_access_key\":5\x7d"⟩]) := by
  decide!

/-- C8. Write is a full replace: for non-empty bags `a1` and `a2`, after WRITE
`k a1` followed by WRITE `k a2` the entry under `k` is exactly the encoding of
`a2`, the storage is the one that WRITE `k a2` alone leaves, and the READ of
`raw/k` returns the value that `a2` binds to `secret_access_key` (the nil
value when `a2` lacks the field), whatever `a1` held. -/
theorem write_full_replace (nameRe : List Char → Bool) (hn : NoSlash nameRe) (st : Storage)
    (k : String) (a1 a2 body : Bag) (hk : nameRe k.data = true) (h1 : a1 ≠ []) (h2 : a2 ≠ []) :
    ∃ st1 st2 buf2,
      HandleRequest nameRe Awssignature.Backend ⟨.WriteOperation, k, a1, st⟩ = (.ok none, st1) ∧
      HandleRequest nameRe Awssignature.Backend ⟨.WriteOperation, k, a2, st1⟩ = (.ok none, st2) ∧
      Json.Marshal a2 = .ok buf2 ∧ st2.Get k = .ok (some ⟨k, buf2⟩) ∧
      HandleRequest nameRe Awssignature.Backend ⟨.WriteOperation, k, a2, st⟩ = (.ok none, st2) ∧
      HandleRequest nameRe Awssignature.Backend ⟨.ReadOperation, "raw/" ++ k, body, st2⟩
        = (.ok (some { Data := [("secret_access_key", a2.index "secret_access_key")] }), st2) := by
  obtain ⟨buf1, _, _, hw1⟩ :=
    handleWrite_ok ⟨.WriteOperation, k, a1, st⟩ { Raw := [("key_id", .str k)], Schema := Fields } h1
  obtain ⟨buf2, hm2, hu2, hw2⟩ :=
    handleWrite_ok ⟨.WriteOperation, k, a2, st⟩ { Raw := [("key_id", .str k)], Schema := Fields } h2
  obtain ⟨buf3, hm3, _, hw3⟩ :=
    handleWrite_ok ⟨.WriteOperation, k, a2, ⟨k, buf1⟩ :: st.filter fun e => e.Key ≠ k⟩
      { Raw := [("key_id", .str k)], Schema := Fields } h2
  have hb : buf3 = buf2 := by
    have : Json.Marshal a2 = .ok buf3 := hm3
    rw [hm2] at this
    injection this with this
    exact this.symm
  subst hb
  have hget : Storage.Get (⟨k, buf3⟩ :: st.filter fun e => e.Key ≠ k) k = .ok (some ⟨k, buf3⟩) := by
    simp [Storage.Get]
  refine ⟨⟨k, buf1⟩ :: st.filter fun e => e.Key ≠ k, ⟨k, buf3⟩ :: st.filter fun e => e.Key ≠ k,
    buf3, ?_, ?_, hm2, hget, ?_, ?_⟩
  · rw [HandleRequest_key_write hn hk]
    exact hw1
  · rw [HandleRequest_key_write hn hk, hw3]
    simp [List.filter_cons, Storage.filter_filter]
  · rw [HandleRequest_key_write hn hk]
    exact hw2
  · rw [HandleRequest_raw hn hk]
    simp only [handleRawRead]
    rw [handleRawReadResult_ok k body _ _ ⟨k, buf3⟩ a2 hget hu2]

/-- An instance of C8: a secret overwritten by a bag without the field. -/
theorem write_full_replace_witness :
    ∃ st1 st2 buf2,
      HandleRequest genericName Awssignature.Backend
        ⟨.WriteOperation, "key_name", [("secret_access_key", .str "foobar")], []⟩
          = (.ok none, st1) ∧
      HandleRequest genericName Awssignature.Backend
        ⟨.WriteOperation, "key_name", [("note", .str "x")], st1⟩ = (.ok none, st2) ∧
      Json.Marshal [("note", .str "x")] = .ok buf2 ∧
      st2.Get "key_name" = .ok (some ⟨"key_name", buf2⟩) ∧
      HandleRequest genericName Awssignature.Backend
        ⟨.WriteOperation, "key_name", [("note", .str "x")], []⟩ = (.ok none, st2) ∧
      HandleRequest genericName Awssignature.Backend
        ⟨.ReadOperation, "raw/" ++ "key_name", [], st2⟩
        = (.ok (some { Data := [("secret_access_key", .null)] }), st2) :=
  write_full_replace genericName genericName_noSlash [] "key_name"
    [("secret_access_key", .str "foobar")] [("note", .str "x")] [] (by decide) (by decide)
    (by decide)

/-- C9. Output size: for every secret, date, region and service, the signing
key has exactly 32 bytes, each below 256, and its standard base64 encoding has
exactly 44 characters: 43 characters of the alphabet followed by one `=`. -/
theorem signature_size (secretKey datestamp regionName serviceName : String) :
    (buildSignature secretKey datestamp regionName serviceName).length = 32 ∧
    (buildSignature secretKey datestamp regionName serviceName).all
      (fun b => decide (b < 256)) = true ∧
    (Base64.EncodeToString
      (buildSignature secretKey datestamp regionName serviceName)).length = 44 ∧
    (Base64.EncodeToString
      (buildSignature secretKey datestamp regionName serviceName)).data.dropLast.all
        (fun c => Base64.encodeStd.contains c) = true ∧
    (Base64.EncodeToString
      (buildSignature secretKey datestamp regionName serviceName)).data.getLast? = some '=' := by
  have hlen : (buildSignature secretKey datestamp regionName serviceName).length = 32 :=
    Hmac.Sum_length _ _
  have hlast := Base64.encode_last _ (show
    (buildSignature secretKey datestamp regionName serviceName).length % 3 = 2 by rw [hlen])
  refine ⟨hlen, Hmac.Sum_bytes _ _, ?_, hlast.2, hlast.1⟩
  show (Base64.encode _).length = 44
  rw [Base64.encode_length, hlen]

/-- C10. The three path shapes are mutually exclusive: for a name grammar that
excludes the slash and every request path, no two of the anchored patterns
`{key_id}`, `{key_id}/{date}/{service_name}/{region_name}` and `raw/{key_id}`
match the path, a pattern that matches determines the captured parameters,
and `raw/k` matches the raw pattern only. -/
theorem path_shapes_exclusive (nameRe : List Char → Bool) (hn : NoSlash nameRe)
    (path : List Char) (c1 c2 : Captures) :
    ¬ (Matches nameRe pathWriteStandardKey.Pattern path c1 ∧
        Matches nameRe pathStandardKey.Pattern path c2) ∧
    ¬ (Matches nameRe pathWriteStandardKey.Pattern path c1 ∧
        Matches nameRe pathReadRawKey.Pattern path c2) ∧
    ¬ (Matches nameRe pathStandardKey.Pattern path c1 ∧
        Matches nameRe pathReadRawKey.Pattern path c2) ∧
    (∀ p, p ∈ [pathWriteStandardKey, pathStandardKey, pathReadRawKey] →
      Matches nameRe p.Pattern path c1 → Matches nameRe p.Pattern path c2 → c1 = c2) ∧
    (∀ k : List Char, nameRe k = true →
      Matches nameRe pathReadRawKey.Pattern ("raw/".data ++ k) [("key_id", ⟨k⟩)] ∧
      ¬ Matches nameRe pathWriteStandardKey.Pattern ("raw/".data ++ k) c1 ∧
      ¬ Matches nameRe pathStandardKey.Pattern ("raw/".data ++ k) c1) := by
  have s1 : slashes pathWriteStandardKey.Pattern = 0 := by decide
  have s4 : slashes pathStandardKey.Pattern = 3 := by decide
  have sr : slashes pathReadRawKey.Pattern = 1 := by decide
  refine ⟨?_, ?_, ?_, ?_, ?_⟩
  · rintro ⟨h1, h2⟩
    have e1 := h1.count_slash hn
    have e2 := h2.count_slash hn
    omega
  · rintro ⟨h1, h2⟩
    have e1 := h1.count_slash hn
    have e2 := h2.count_slash hn
    omega
  · rintro ⟨h1, h2⟩
    have e1 := h1.count_slash hn
    have e2 := h2.count_slash hn
    omega
  · intro p hp h1 h2
    simp only [List.mem_cons, List.mem_singleton, List.not_mem_nil, or_false] at hp
    rcases hp with rfl | rfl | rfl
    · exact Matches.unique hn _ _ _ _ (by decide) h1 h2
    · exact Matches.unique hn _ _ _ _ (by decide) h1 h2
    · exact Matches.unique hn _ _ _ _ (by decide) h1 h2
  · intro k hk
    have hc : ("raw/".data ++ k).count '/' = 1 := by
      rw [raw_data]
      simp [List.count_cons, count_slash_of_name hn hk]
    refine ⟨matches_raw hk, ?_, ?_⟩
    · intro h
      have e := h.count_slash hn
      omega
    · intro h
      have e := h.count_slash hn
      omega

/-- An instance of C10: the path `raw/key_name` under the generic-name grammar. -/
theorem path_shapes_exclusive_witness :
    ¬ (Matches genericName pathWriteStandardKey.Pattern "raw/key_name".data
          [("key_id", "raw/key_name")] ∧
        Matches genericName pathStandardKey.Pattern "raw/key_name".data
          [("key_id", "key_name")]) ∧
    ¬ (Matches genericName pathWriteStandardKey.Pattern "raw/key_name".data
          [("key_id", "raw/key_name")] ∧
        Matches genericName pathReadRawKey.Pattern "raw/key_name".data
          [("key_id", "key_name")]) ∧
    ¬ (Matches genericName pathStandardKey.Pattern "raw/key_name".data
          [("key_id", "raw/key_name")] ∧
        Matches genericName pathReadRawKey.Pattern "raw/key_name".data
          [("key_id", "key_name")]) ∧
    (∀ p, p ∈ [pathWriteStandardKey, pathStandardKey, pathReadRawKey] →
      Matches genericName p.Pattern "raw/key_name".data [("key_id", "raw/key_name")] →
      Matches genericName p.Pattern "raw/key_name".data [("key_id", "key_name")] →
      [("key_id", "raw/key_name")] = [("key_id", "key_name")]) ∧
    (∀ k : List Char, genericName k = true →
      Matches genericName pathReadRawKey.Pattern ("raw/".data ++ k) [("key_id", ⟨k⟩)] ∧
      ¬ Matches genericName pathWriteStandardKey.Pattern ("raw/".data ++ k)
          [("key_id", "raw/key_name")] ∧
      ¬ Matches genericName pathStandardKey.Pattern ("raw/".data ++ k)
          [("key_id", "raw/key_name")]) :=
  path_shapes_exclusive genericName genericName_noSlash "raw/key_name".data
    [("key_id", "raw/key_name")] [("key_id", "key_name")]

/-- C11. Generic-name acceptance: every non-empty token made only of letters,
digits, hyphen, underscore and dot is a generic name, so the pattern
`GenericNameRegex(name)` matches it in full, capturing it as `name`,
`MatchString` accepts it, and as a request path it is routed to the
one-segment path with the token as `key_id`.  The test `TestGenericNameRegex`
(names `foo`, `bar`, `en`, `us`) passes. -/
theorem generic_name_acceptance (name w : String) (hne : w.data ≠ [])
    (hall : ∀ c, c ∈ w.data → c.isAlphanum = true ∨ c = '-' ∨ c = '_' ∨ c = '.') :
    genericName w.data = true ∧
    Matches genericName (GenericNameRegex name) w.data [(name, w)] ∧
    MatchString genericName (GenericNameRegex name) w = true ∧
    route genericName Awssignature.Backend.Paths w
      = some (pathWriteStandardKey, [("key_id", w)]) ∧
    TestGenericNameRegex genericName = true := by
  have hg : genericName w.data = true := by
    simp only [genericName, Bool.and_eq_true, Bool.not_eq_true', List.isEmpty_eq_false,
      List.all_eq_true, Bool.or_eq_true, decide_eq_true_eq]
    refine ⟨hne, fun c hc => ?_⟩
    rcases hall c hc with h | h | h | h
    · exact Or.inl (Or.inl (Or.inl h))
    · exact Or.inl (Or.inl (Or.inr h))
    · exact Or.inl (Or.inr h)
    · exact Or.inr h
  have hm : Matches genericName (GenericNameRegex name) w.data [(name, w)] := by
    have := Matches.name name [] w.data [] [] hg Matches.nil
    rwa [List.append_nil] at this
  exact ⟨hg, hm, MatchString_of_matches hm, route_key genericName_noSlash hg, by decide⟩

/-- An instance of C11: the two-character name `en`. -/
theorem generic_name_acceptance_witness :
    genericName "en".data = true ∧
    Matches genericName (GenericNameRegex "name") "en".data [("name", "en")] ∧
    MatchString genericName (GenericNameRegex "name") "en" = true ∧
    route genericName Awssignature.Backend.Paths "en"
      = some (pathWriteStandardKey, [("key_id", "en")]) ∧
    TestGenericNameRegex genericName = true :=
  generic_name_acceptance "name" "en" (by decide) (by decide)

/-- C12. Path grammar rejection: let the name grammar accept generic names
only.  If some segment of the request path is not a generic name (it is empty
or holds a character other than a letter, digit, hyphen, underscore or dot),
or the number of segments is none of 1, 2 and 4, then no pattern matches the
path, it is not routed, and the request fails with `unsupported path` whatever
the operation, with the storage left as it is. -/
theorem path_grammar_rejection (nameRe : List Char → Bool)
    (hsub : ∀ w, nameRe w = true → genericName w = true) (path : String)
    (hbad : (∃ s, s ∈ Strings.splitChars '/' path.data ∧ genericName s = false) ∨
      ((Strings.splitChars '/' path.data).length ≠ 1 ∧
        (Strings.splitChars '/' path.data).length ≠ 2 ∧
        (Strings.splitChars '/' path.data).length ≠ 4)) :
    (∀ p, p ∈ Awssignature.Backend.Paths → ∀ caps, ¬ Matches nameRe p.Pattern path.data caps) ∧
    route nameRe Awssignature.Backend.Paths path = none ∧
    (∀ (op : Operation) (body : Bag) (st : Storage),
      HandleRequest nameRe Awssignature.Backend ⟨op, path, body, st⟩
        = (.error (.error "unsupported path"), st)) := by
  have hn : NoSlash nameRe := fun w hw => genericName_noSlash w (hsub w hw)
  have hno : ∀ p, p ∈ Awssignature.Backend.Paths → ∀ caps,
      ¬ Matches nameRe p.Pattern path.data caps := by
    intro p hp caps hm
    obtain ⟨hseg, hlen⟩ := matches_segments hn hp hm
    rcases hbad with ⟨s, hs, hsbad⟩ | ⟨h1, h2, h4⟩
    · rcases hseg s hs with h | h
      · rw [hsub s h] at hsbad
        exact absurd hsbad (by decide)
      · subst h
        exact absurd hsbad (by decide)
    · rcases hlen with h | h | h
      · exact h1 h
      · exact h2 h
      · exact h4 h
  have hr := route_none nameRe path _ hno
  refine ⟨hno, hr, fun op body st => ?_⟩
  simp only [HandleRequest, hr]

/-- An instance of C12: the path `key name`, whose only segment holds a space. -/
theorem path_grammar_rejection_witness :
    (∀ p, p ∈ Awssignature.Backend.Paths → ∀ caps,
      ¬ Matches genericName p.Pattern "key name".data caps) ∧
    route genericName Awssignature.Backend.Paths "key name" = none ∧
    (∀ (op : Operation) (body : Bag) (st : Storage),
      HandleRequest genericName Awssignature.Backend ⟨op, "key name", body, st⟩
        = (.error (.error "unsupported path"), st)) :=
  path_grammar_rejection genericName (fun _ h => h) "key name"
    (Or.inl ⟨"key name".data, by decide, by decide⟩)

/-- C13. The raw secret is returned only by the raw path.  A WRITE or a DELETE,
whatever its path, returns no payload; a successful READ of the bare path `k`
or of `k/d/v/r` returns a payload whose only field is `signature`, so it has
no `secret_access_key` field; a successful READ of `raw/k` returns the single
field `secret_access_key` and no `signature`. -/
theorem secret_only_by_raw_path (nameRe : List Char → Bool) (hn : NoSlash nameRe)
    (st : Storage) (k d v r : String) (body : Bag) (hk : nameRe k.data = true)
    (hd : nameRe d.data = true) (hv : nameRe v.data = true) (hr : nameRe r.data = true) :
    (∀ (path : String) (a : Bag) (resp : Option Response),
      (HandleRequest nameRe Awssignature.Backend ⟨.WriteOperation, path, a, st⟩).1 = .ok resp →
        resp = none) ∧
    (∀ (path : String) (a : Bag) (resp : Option Response),
      (HandleRequest nameRe Awssignature.Backend ⟨.DeleteOperation, path, a, st⟩).1 = .ok resp →
        resp = none) ∧
    (∀ resp : Response,
      (HandleRequest nameRe Awssignature.Backend ⟨.ReadOperation, k, body, st⟩).1
          = .ok (some resp) →
        (∃ sig, resp.Data = [("signature", .str sig)]) ∧
          resp.Data.get? "secret_access_key" = none) ∧
    (∀ resp : Response,
      (HandleRequest nameRe Awssignature.Backend
          ⟨.ReadOperation, k ++ "/" ++ d ++ "/" ++ v ++ "/" ++ r, body, st⟩).1
          = .ok (some resp) →
        (∃ sig, resp.Data = [("signature", .str sig)]) ∧
          resp.Data.get? "secret_access_key" = none) ∧
    (∀ resp : Response,
      (HandleRequest nameRe Awssignature.Backend ⟨.ReadOperation, "raw/" ++ k, body, st⟩).1
          = .ok (some resp) →
        (∃ val, resp.Data = [("secret_access_key", val)]) ∧
          resp.Data.get? "signature" = none) := by
  refine ⟨?_, ?_, ?_, ?_, ?_⟩
  · intro path a resp h
    exact HandleRequest_no_payload nameRe _ (fun e => by cases e) resp h
  · intro path a resp h
    exact HandleRequest_no_payload nameRe _ (fun e => by cases e) resp h
  · intro resp h
    rw [HandleRequest_key_read hn hk] at h
    obtain ⟨sig, hs⟩ := handleReadResult_payload _ _ resp h
    exact ⟨⟨sig, hs⟩, by rw [hs]; rfl⟩
  · intro resp h
    rw [HandleRequest_standard hn hk hd hv hr] at h
    obtain ⟨sig, hs⟩ := handleReadResult_payload _ _ resp h
    exact ⟨⟨sig, hs⟩, by rw [hs]; rfl⟩
  · intro resp h
    rw [HandleRequest_raw hn hk] at h
    obtain ⟨val, hs⟩ := handleRawReadResult_payload _
      { Raw := [("key_id", .str k)], Schema := Fields } resp h
    exact ⟨⟨val, hs⟩, by rw [hs]; rfl⟩

/-- An instance of C13: requests for `key_name` on a storage holding its record. -/
theorem secret_only_by_raw_path_witness :
    (∀ (path : String) (a : Bag) (resp : Option Response),
      (HandleRequest genericName Awssignature.Backend ⟨.WriteOperation, path, a,
          [⟨"key_name", "\x7b\"secret_access_key\":\"foobar\"\x7d"⟩]⟩).1 = .ok resp →
        resp = none) ∧
    (∀ (path : String) (a : Bag) (resp : Option Response),
      (HandleRequest genericName Awssignature.Backend ⟨.DeleteOperation, path, a,
          [⟨"key_name", "\x7b\"secret_access_key\":\"foobar\"\x7d"⟩]⟩).1 = .ok resp →
        resp = none) ∧
    (∀ resp : Response,
      (HandleRequest genericName Awssignature.Backend ⟨.ReadOperation, "key_name", [],
          [⟨"key_name", "\x7b\"secret_access_key\":\"foobar\"\x7d"⟩]⟩).1 = .ok (some resp) →
        (∃ sig, resp.Data = [("signature", .str sig)]) ∧
          resp.Data.get? "secret_access_key" = none) ∧
    (∀ resp : Response,
      (HandleRequest genericName Awssignature.Backend
          ⟨.ReadOperation, "key_name" ++ "/" ++ "20150831" ++ "/" ++ "ec2" ++ "/" ++ "us-east-1",
            [], [⟨"key_name", "\x7b\"secret_access_key\":\"foobar\"\x7d"⟩]⟩).1
          = .ok (some resp) →
        (∃ sig, resp.Data = [("signature", .str sig)]) ∧
          resp.Data.get? "secret_access_key" = none) ∧
    (∀ resp : Response,
      (HandleRequest genericName Awssignature.Backend ⟨.ReadOperation, "raw/" ++ "key_name", [],
          [⟨"key_name", "\x7b\"secret_access_key\":\"foobar\"\x7d"⟩]⟩).1 = .ok (some resp) →
        (∃ val, resp.Data = [("secret_access_key", val)]) ∧
          resp.Data.get? "signature" = none) :=
  secret_only_by_raw_path genericName genericName_noSlash _ "key_name" "20150831" "ec2"
    "us-east-1" [] (by decide) (by decide) (by decide) (by decide)

/-- C14. Delete makes the record absent.  For every storage state, DELETE `k`
succeeds and on the storage it leaves the READ of `k`, of `k/d/v/r` and of
`raw/k` each return the empty result.  After any sequence of requests, each of
these reads returns the empty result exactly when the last successful WRITE
or DELETE addressed to `k` was not a WRITE (when there was none: exactly when
the initial storage held no record under `k`). -/
theorem delete_makes_absent (nameRe : List Char → Bool) (hn : NoSlash nameRe)
    (k d v r : String) (body : Bag) (hk : nameRe k.data = true) (hd : nameRe d.data = true)
    (hv : nameRe v.data = true) (hr : nameRe r.data = true) :
    (∀ st : Storage, ∃ st1,
      HandleRequest nameRe Awssignature.Backend ⟨.DeleteOperation, k, body, st⟩
        = (.ok none, st1) ∧
      HandleRequest nameRe Awssignature.Backend ⟨.ReadOperation, k, body, st1⟩
        = (.ok none, st1) ∧
      HandleRequest nameRe Awssignature.Backend
          ⟨.ReadOperation, k ++ "/" ++ d ++ "/" ++ v ++ "/" ++ r, body, st1⟩ = (.ok none, st1) ∧
      HandleRequest nameRe Awssignature.Backend ⟨.ReadOperation, "raw/" ++ k, body, st1⟩
        = (.ok none, st1)) ∧
    (∀ (st : Storage) (reqs : List Request),
      ((HandleRequest nameRe Awssignature.Backend
          ⟨.ReadOperation, k, body, serve nameRe st reqs⟩).1 = .ok none
        ↔ lastWrite k (st.Has k) reqs = false) ∧
      ((HandleRequest nameRe Awssignature.Backend
          ⟨.ReadOperation, k ++ "/" ++ d ++ "/" ++ v ++ "/" ++ r, body,
            serve nameRe st reqs⟩).1 = .ok none
        ↔ lastWrite k (st.Has k) reqs = false) ∧
      ((HandleRequest nameRe Awssignature.Backend
          ⟨.ReadOperation, "raw/" ++ k, body, serve nameRe st reqs⟩).1 = .ok none
        ↔ lastWrite k (st.Has k) reqs = false)) := by
  constructor
  · intro st
    have hget : Storage.Get (st.filter fun e => e.Key ≠ k) k = .ok none :=
      Storage.get_of_has_false _ _ (Storage.has_delete st k)
    refine ⟨st.filter fun e => e.Key ≠ k, ?_, ?_, ?_, ?_⟩
    · rw [HandleRequest_key_delete hn hk]
      rfl
    · rw [HandleRequest_key_read hn hk]
      simp only [handleRead]
      rw [handleReadResult_absent _ _ k (fields_key k Fields).1 hget]
    · rw [HandleRequest_standard hn hk hd hv hr]
      simp only [handleRead]
      rw [handleReadResult_absent _ _ k (fields_standard k d v r Fields).1 hget]
    · rw [HandleRequest_raw hn hk]
      simp only [handleRawRead]
      rw [handleRawReadResult_absent k body _ _ hget]
  · intro st reqs
    have h := reads_empty_iff hn hk hd hv hr body (serve nameRe st reqs)
    rw [serve_has hn hk reqs st] at h
    exact h

/-- An instance of C14: `key_name`, written and then deleted. -/
theorem delete_makes_absent_witness :
    (∀ st : Storage, ∃ st1,
      HandleRequest genericName Awssignature.Backend ⟨.DeleteOperation, "key_name", [], st⟩
        = (.ok none, st1) ∧
      HandleRequest genericName Awssignature.Backend ⟨.ReadOperation, "key_name", [], st1⟩
        = (.ok none, st1) ∧
      HandleRequest genericName Awssignature.Backend
          ⟨.ReadOperation, "key_name" ++ "/" ++ "20150831" ++ "/" ++ "ec2" ++ "/" ++ "us-east-1",
            [], st1⟩ = (.ok none, st1) ∧
      HandleRequest genericName Awssignature.Backend ⟨.ReadOperation, "raw/" ++ "key_name", [], st1⟩
        = (.ok none, st1)) ∧
    (∀ (st : Storage) (reqs : List Request),
      ((HandleRequest genericName Awssignature.Backend
          ⟨.ReadOperation, "key_name", [], serve genericName st reqs⟩).1 = .ok none
        ↔ lastWrite "key_name" (st.Has "key_name") reqs = false) ∧
      ((HandleRequest genericName Awssignature.Backend
          ⟨.ReadOperation, "key_name" ++ "/" ++ "20150831" ++ "/" ++ "ec2" ++ "/" ++ "us-east-1",
            [], serve genericName st reqs⟩).1 = .ok none
        ↔ lastWrite "key_name" (st.Has "key_name") reqs = false) ∧
      ((HandleRequest genericName Awssignature.Backend
          ⟨.ReadOperation, "raw/" ++ "key_name", [], serve genericName st reqs⟩).1 = .ok none
        ↔ lastWrite "key_name" (st.Has "key_name") reqs = false)) :=
  delete_makes_absent genericName genericName_noSlash "key_name" "20150831" "ec2" "us-east-1" []
    (by decide) (by decide) (by decide) (by decide)

/-- C15. Raw-read is a pass-through of the stored field: when a decodable record
is present under `k`, the READ of `raw/k` returns the non-empty response whose
single field `secret_access_key` holds the value the record binds to that name,
whatever its type, and the nil value when the record does not bind it; the
result is neither the empty result nor an error. -/
theorem raw_read_pass_through (nameRe : List Char → Bool) (hn : NoSlash nameRe)
    (st : Storage) (k : String) (body : Bag) (out : StorageEntry) (rawData : Bag)
    (hk : nameRe k.data = true) (hget : st.Get k = .ok (some out))
    (hdec : Json.Unmarshal out.Value = .ok rawData) :
    HandleRequest nameRe Awssignature.Backend ⟨.ReadOperation, "raw/" ++ k, body, st⟩
      = (.ok (some { Data := [("secret_access_key", rawData.index "secret_access_key")] }), st) ∧
    (∀ val, rawData.get? "secret_access_key" = some val →
      rawData.index "secret_access_key" = val) ∧
    (rawData.get? "secret_access_key" = none → rawData.index "secret_access_key" = .null) := by
  refine ⟨?_, ?_, ?_⟩
  · rw [HandleRequest_raw hn hk]
    simp only [handleRawRead]
    rw [handleRawReadResult_ok k body st _ out rawData hget hdec]
  · intro val h
    simp only [Bag.index, h, Option.getD_some]
  · intro h
    simp only [Bag.index, h, Option.getD_none]

/-- An instance of C15: a record that binds `secret_access_key` to a number. -/
theorem raw_read_pass_through_witness :
    HandleRequest genericName Awssignature.Backend
        ⟨.ReadOperation, "raw/" ++ "key_name", [],
          [⟨"key_name", "\x7b\"secret_access_key\":5\x7d"⟩]⟩
      = (.ok (some { Data := [("secret_access_key",
            Bag.index [("secret_access_key", .num 5)] "secret_access_key")] }),
          [⟨"key_name", "\x7b\"secret_access_key\":5\x7d"⟩]) ∧
    (∀ val, Bag.get? [("secret_access_key", .num 5)] "secret_access_key" = some val →
      Bag.index [("secret_access_key", .num 5)] "secret_access_key" = val) ∧
    (Bag.get? [("secret_access_key", .num 5)] "secret_access_key" = none →
      Bag.index [("secret_access_key", .num 5)] "secret_access_key" = .null) :=
  raw_read_pass_through genericName genericName_noSlash _ "key_name" []
    ⟨"key_name", "\x7b\"secret_access_key\":5\x7d"⟩ [("secret_access_key", .num 5)]
    (by decide) (by decide) (by decide)

/-- C16. Bare-key read derives with an empty context: when key `k` holds a record
whose `secret_access_key` is the string `s`, the READ of the one-segment path
`k`, which carries no fields, succeeds and returns the field `signature` with
the base64 of `buildSignature(s, "", "", "")`. -/
theorem bare_key_read (nameRe : List Char → Bool) (hn : NoSlash nameRe) (st : Storage)
    (k s : String) (out : StorageEntry) (rawData : Bag) (hk : nameRe k.data = true)
    (hget : st.Get k = .ok (some out)) (hdec : Json.Unmarshal out.Value = .ok rawData)
    (hkey : rawData.get? "secret_access_key" = some (.str s)) :
    HandleRequest nameRe Awssignature.Backend ⟨.ReadOperation, k, [], st⟩
      = (.ok (some { Data := [("signature",
          .str (Base64.EncodeToString (buildSignature s "" "" "")))] }), st) := by
  rw [HandleRequest_key_read hn hk]
  obtain ⟨h1, h2, h3, h4⟩ := fields_key k Fields
  simp only [handleRead]
  rw [handleReadResult_ok _ _ k "" "" "" s out rawData h1 h2 h3 h4 hget hdec hkey]

/-- An instance of C16: the record of the acceptance test, read at `key_name`. -/
theorem bare_key_read_witness :
    HandleRequest genericName Awssignature.Backend
        ⟨.ReadOperation, "key_name", [],
          [⟨"key_name", "\x7b\"secret_access_key\":\"foobar\"\x7d"⟩]⟩
      = (.ok (some { Data := [("signature",
          .str (Base64.EncodeToString (buildSignature "foobar" "" "" "")))] }),
          [⟨"key_name", "\x7b\"secret_access_key\":\"foobar\"\x7d"⟩]) :=
  bare_key_read genericName genericName_noSlash _ "key_name" "foobar"
    ⟨"key_name", "\x7b\"secret_access_key\":\"foobar\"\x7d"⟩
    [("secret_access_key", .str "foobar")] (by decide) (by decide) (by decide) (by decide)

/-- C17. The signature depends only on the secret and the path context: when two
storage states each hold under `k` a record whose `secret_access_key` is the
same string `s`, whatever else the records and the storages hold, the
derive-reads of `k/d/v/r` return the same response. -/
theorem signature_depends_on_secret_only (nameRe : List Char → Bool) (hn : NoSlash nameRe)
    (st1 st2 : Storage) (k d v r s : String) (body1 body2 : Bag) (out1 out2 : StorageEntry)
    (raw1 raw2 : Bag) (hk : nameRe k.data = true) (hd : nameRe d.data = true)
    (hv : nameRe v.data = true) (hr : nameRe r.data = true)
    (hget1 : st1.Get k = .ok (some out1)) (hdec1 : Json.Unmarshal out1.Value = .ok raw1)
    (hkey1 : raw1.get? "secret_access_key" = some (.str s))
    (hget2 : st2.Get k = .ok (some out2)) (hdec2 : Json.Unmarshal out2.Value = .ok raw2)
    (hkey2 : raw2.get? "secret_access_key" = some (.str s)) :
    (HandleRequest nameRe Awssignature.Backend
        ⟨.ReadOperation, k ++ "/" ++ d ++ "/" ++ v ++ "/" ++ r, body1, st1⟩).1
      = (HandleRequest nameRe Awssignature.Backend
        ⟨.ReadOperation, k ++ "/" ++ d ++ "/" ++ v ++ "/" ++ r, body2, st2⟩).1 := by
  rw [HandleRequest_derive hn hk hd hv hr body1 st1 s out1 raw1 hget1 hdec1 hkey1,
    HandleRequest_derive hn hk hd hv hr body2 st2 s out2 raw2 hget2 hdec2 hkey2]

/-- An instance of C17: two storages whose records for `key_name` share the
secret and differ in another attribute and in the other keys held. -/
theorem signature_depends_on_secret_only_witness :
    (HandleRequest genericName Awssignature.Backend
        ⟨.ReadOperation, "key_name" ++ "/" ++ "20150831" ++ "/" ++ "ec2" ++ "/" ++ "us-east-1", [],
          [⟨"key_name", "\x7b\"secret_access_key\":\"foobar\"\x7d"⟩]⟩).1
      = (HandleRequest genericName Awssignature.Backend
        ⟨.ReadOperation, "key_name" ++ "/" ++ "20150831" ++ "/" ++ "ec2" ++ "/" ++ "us-east-1", [],
          [⟨"other", "\x7b\"secret_access_key\":\"x\"\x7d"⟩,
            ⟨"key_name", "\x7b\"note\":true,\"secret_access_key\":\"foobar\"\x7d"⟩]⟩).1 :=
  signature_depends_on_secret_only genericName genericName_noSlash _ _ "key_name" "20150831"
    "ec2" "us-east-1" "foobar" [] []
    ⟨"key_name", "\x7b\"secret_access_key\":\"foobar\"\x7d"⟩
    ⟨"key_name", "\x7b\"note\":true,\"secret_access_key\":\"foobar\"\x7d"⟩
    [("secret_access_key", .str "foobar")]
    [("note", .bool true), ("secret_access_key", .str "foobar")]
    (by decide) (by decide) (by decide) (by decide) (by decide) (by decide) (by decide)
    (by decide) (by decide) (by decide)

/-- C18. Frame: a WRITE or DELETE addressed to `k` leaves the entry under every
other key as it was, and the READ of `k`, of `k/d/v/r` and of `raw/k` leave
the whole storage as it was, whatever their outcome. -/
theorem frame (nameRe : List Char → Bool) (st : Storage) (k other d v r : String)
    (a body : Bag) (hne : other ≠ k) :
    (HandleRequest nameRe Awssignature.Backend ⟨.WriteOperation, k, a, st⟩).2.Get other
      = st.Get other ∧
    (HandleRequest nameRe Awssignature.Backend ⟨.DeleteOperation, k, body, st⟩).2.Get other
      = st.Get other ∧
    (HandleRequest nameRe Awssignature.Backend ⟨.ReadOperation, k, body, st⟩).2 = st ∧
    (HandleRequest nameRe Awssignature.Backend
      ⟨.ReadOperation, k ++ "/" ++ d ++ "/" ++ v ++ "/" ++ r, body, st⟩).2 = st ∧
    (HandleRequest nameRe Awssignature.Backend ⟨.ReadOperation, "raw/" ++ k, body, st⟩).2 = st :=
  ⟨(HandleRequest_frame nameRe ⟨.WriteOperation, k, a, st⟩ other hne).1,
    (HandleRequest_frame nameRe ⟨.DeleteOperation, k, body, st⟩ other hne).1,
    HandleRequest_read_storage nameRe _ _ _, HandleRequest_read_storage nameRe _ _ _,
    HandleRequest_read_storage nameRe _ _ _⟩

/-- An instance of C18: operations on `key_name` and the entry under `other`. -/
theorem frame_witness :
    (HandleRequest genericName Awssignature.Backend
        ⟨.WriteOperation, "key_name", [("secret_access_key", .str "foobar")],
          [⟨"other", "\x7b\"secret_access_key\":\"x\"\x7d"⟩]⟩).2.Get "other"
      = Storage.Get [⟨"other", "\x7b\"secret_access_key\":\"x\"\x7d"⟩] "other" ∧
    (HandleRequest genericName Awssignature.Backend
        ⟨.DeleteOperation, "key_name", [],
          [⟨"other", "\x7b\"secret_access_key\":\"x\"\x7d"⟩]⟩).2.Get "other"
      = Storage.Get [⟨"other", "\x7b\"secret_access_key\":\"x\"\x7d"⟩] "other" ∧
    (HandleRequest genericName Awssignature.Backend
        ⟨.ReadOperation, "key_name", [],
          [⟨"other", "\x7b\"secret_access_key\":\"x\"\x7d"⟩]⟩).2
      = [⟨"other", "\x7b\"secret_access_key\":\"x\"\x7d"⟩] ∧
    (HandleRequest genericName Awssignature.Backend
        ⟨.ReadOperation, "key_name" ++ "/" ++ "20150831" ++ "/" ++ "ec2" ++ "/" ++ "us-east-1", [],
          [⟨"other", "\x7b\"secret_access_key\":\"x\"\x7d"⟩]⟩).2
      = [⟨"other", "\x7b\"secret_access_key\":\"x\"\x7d"⟩] ∧
    (HandleRequest genericName Awssignature.Backend
        ⟨.ReadOperation, "raw/" ++ "key_name", [],
          [⟨"other", "\x7b\"secret_access_key\":\"x\"\x7d"⟩]⟩).2
      = [⟨"other", "\x7b\"secret_access_key\":\"x\"\x7d"⟩] :=
  frame genericName [⟨"other", "\x7b\"secret_access_key\":\"x\"\x7d"⟩] "key_name" "other"
    "20150831" "ec2" "us-east-1" [("secret_access_key", .str "foobar")] [] (by decide)

end Awssignature

namespace Pgpkeys

open Logical

/-- C19. `ReadPGPFile` normalises to base64.  For a non-empty path, with a single
leading `@` stripped before the file is opened, and a readable file with
contents `buf`: the contents are returned unchanged when they decode as
standard base64, and their standard base64 encoding is returned otherwise; the
returned text always decodes as standard base64; and a file holding the
returned text yields that same text. -/
theorem ReadPGPFile_normalises (fs : FileSystem) (path : String) (c0 : Char) (cs : List Char)
    (buf : Bytes) (hpath : path.data = c0 :: cs)
    (hopen : fs (if c0 = '@' then ⟨cs⟩ else path) = .ok (.ok buf)) :
    ((∃ out, Base64.DecodeString (bufString buf) = .ok out) →
      ReadPGPFile fs path = .ok (bufString buf)) ∧
    ((∃ e, Base64.DecodeString (bufString buf) = .error e) →
      ReadPGPFile fs path = .ok (Base64.EncodeToString buf)) ∧
    (∃ r, ReadPGPFile fs path = .ok r ∧ (∃ out, Base64.DecodeString r = .ok out) ∧
      ∀ (fs2 : FileSystem) (path2 : String) (d0 : Char) (ds : List Char),
        path2.data = d0 :: ds →
        fs2 (if d0 = '@' then ⟨ds⟩ else path2) = .ok (.ok (stringBytes r)) →
        ReadPGPFile fs2 path2 = .ok r) := by
  have hread := ReadPGPFile_readable fs path c0 cs buf hpath hopen
  have again : ∀ r : String, (∃ out, Base64.DecodeString r = .ok out) →
      ∀ (fs2 : FileSystem) (path2 : String) (d0 : Char) (ds : List Char),
        path2.data = d0 :: ds →
        fs2 (if d0 = '@' then ⟨ds⟩ else path2) = .ok (.ok (stringBytes r)) →
        ReadPGPFile fs2 path2 = .ok r := by
    rintro r ⟨out, hout⟩ fs2 path2 d0 ds hp2 ho2
    have hb := bufString_stringBytes r (Base64.chars_of_DecodeString r out hout)
    rw [ReadPGPFile_readable fs2 path2 d0 ds _ hp2 ho2, hb, hout]
  refine ⟨?_, ?_, ?_⟩
  · rintro ⟨out, hout⟩
    rw [hread, hout]
  · rintro ⟨e, he⟩
    rw [hread, he]
  · cases hdec : Base64.DecodeString (bufString buf) with
    | ok out =>
      rw [hdec] at hread
      exact ⟨bufString buf, hread, ⟨out, hdec⟩, again _ ⟨out, hdec⟩⟩
    | error e =>
      rw [hdec] at hread
      exact ⟨Base64.EncodeToString buf, hread, Base64.DecodeString_EncodeToString buf,
        again _ (Base64.DecodeString_EncodeToString buf)⟩

/-- An instance of C19: the path `@bin`, where the file `bin` holds the three
bytes 1, 2, 200. -/
theorem ReadPGPFile_normalises_witness :
    ((∃ out, Base64.DecodeString (bufString [1, 2, 200]) = .ok out) →
      ReadPGPFile (fun p => if p = "bin" then .ok (.ok [1, 2, 200]) else .error "no such file")
        "@bin" = .ok (bufString [1, 2, 200])) ∧
    ((∃ e, Base64.DecodeString (bufString [1, 2, 200]) = .error e) →
      ReadPGPFile (fun p => if p = "bin" then .ok (.ok [1, 2, 200]) else .error "no such file")
        "@bin" = .ok (Base64.EncodeToString [1, 2, 200])) ∧
    (∃ r, ReadPGPFile
        (fun p => if p = "bin" then .ok (.ok [1, 2, 200]) else .error "no such file") "@bin"
          = .ok r ∧
      (∃ out, Base64.DecodeString r = .ok out) ∧
      ∀ (fs2 : FileSystem) (path2 : String) (d0 : Char) (ds : List Char),
        path2.data = d0 :: ds →
        fs2 (if d0 = '@' then ⟨ds⟩ else path2) = .ok (.ok (stringBytes r)) →
        ReadPGPFile fs2 path2 = .ok r) :=
  ReadPGPFile_normalises
    (fun p => if p = "bin" then .ok (.ok [1, 2, 200]) else .error "no such file") "@bin" '@'
    ['b', 'i', 'n'] [1, 2, 200] (by decide) (by decide)

/-- C20. `ReadPGPFile` is not total: on the empty path it panics at the index
access `path[0]`, whatever the file system holds.  `Set` reaches it with the
empty flag value, and with a trailing comma after a readable file. -/
theorem ReadPGPFile_empty_path_panics :
    (∀ fs : FileSystem,
      ReadPGPFile fs "" = .error (.panic "runtime error: index out of range")) ∧
    (∀ fs : FileSystem,
      Set "keybase:" (fun _ => .ok []) fs [] ""
        = (some (.panic "runtime error: index out of range"), [])) ∧
    Set "keybase:" (fun _ => .ok [])
        (fun p => if p = "key.asc" then .ok (.ok (stringBytes "YWJj")) else .error "no such file")
        [] "key.asc,"
      = (some (.panic "runtime error: index out of range"), ["YWJj"]) :=
  ⟨fun _ => rfl, fun _ => rfl, by decide⟩

end Pgpkeys
